import Mathlib

/-!
Verification of the `pw1/stor` blob-storage library.

Strings are modelled as `List Char` (the paths handled by the library are
byte strings; every byte the sanitizer accepts is ASCII, so the char level
is faithful).  File contents (`[]byte`) are modelled as `List Nat`.
Go's `(value, error)` multiple returns are modelled with `Except` for pure
queries and with `state × Option error` for mutating operations.
The embedding follows the current revision of the repository: `storage.go`,
`util.go` (the copy using the structured `InvalidPathError`), `memory.go`
(the copy whose `Delete` reports a missing path), and `localdir.go` (the
copy using the structured error types).
-/

namespace Stor

/-- Delimiter separates path components (`util.go`). -/
def Delimiter : Char := '/'

/-- ValidBytes lists the bytes (characters) that are valid in path components
(`util.go`). -/
def ValidBytes : List Char :=
  "._-abcdefghijklmnopqrstuwvxyzABCDEFGHIJKLMNOPQRSTUWVXYZ0123456789".toList

/-- Membership in `validCharDict` (`util.go` `init`): the delimiter together
with every byte of `ValidBytes`. -/
def validChar (c : Char) : Bool :=
  c == Delimiter || ValidBytes.contains c

/-- Models `strings.Contains(filePath, "..")`: the single entry of the
`Forbidden` list in `util.go`. -/
def containsDotDot : List Char → Bool
  | c1 :: c2 :: rest => (c1 == '.' && c2 == '.') || containsDotDot (c2 :: rest)
  | _ => false

/-- Models `path.IsAbs`: the path starts with the separator. -/
def isAbs (p : List Char) : Bool :=
  match p with
  | c :: _ => c == '/'
  | [] => false

/-- Split a path into its `/`-separated elements (helper for the model of
`path.Clean`).  Splitting the empty string yields one empty element. -/
def splitSeg : List Char → List (List Char)
  | [] => [[]]
  | c :: rest =>
    if c = '/' then [] :: splitSeg rest
    else
      match splitSeg rest with
      | s :: ss => (c :: s) :: ss
      | [] => [[c]]

/-- One step of `path.Clean`'s element processing, on a reversed output stack:
empty and `.` elements are dropped; `..` pops the previous element unless the
stack is empty (kept for relative paths, dropped for rooted ones) or the top
already is a kept `..`; other elements are pushed. -/
def elemStep (rooted : Bool) (out : List (List Char)) (e : List Char) : List (List Char) :=
  if e = [] then out
  else if e = ['.'] then out
  else if e = ['.', '.'] then
    match out with
    | top :: rest => if top = ['.', '.'] then e :: out else rest
    | [] => if rooted then [] else [e]
  else e :: out

/-- The list of elements kept by `path.Clean`, in order. -/
def cleanSegs (rooted : Bool) (elems : List (List Char)) : List (List Char) :=
  (elems.foldl (elemStep rooted) []).reverse

/-- Join path elements with `/`. -/
def joinSegs : List (List Char) → List Char
  | [] => []
  | [s] => s
  | s :: rest => s ++ '/' :: joinSegs rest

/-- Models Go's `path.Clean` through the standard element-stack semantics of
its lazybuf algorithm: iterate over the `/`-separated elements, dropping empty
and `.` elements and resolving `..` against the preceding element, keeping
leading `..` elements of relative paths; the empty result becomes `.`
(or `/` for rooted paths). -/
def pathClean (p : List Char) : List Char :=
  if p = [] then ['.']
  else
    let rooted := isAbs p
    let segs := cleanSegs rooted (splitSeg p)
    if rooted then '/' :: joinSegs segs
    else if segs = [] then ['.']
    else joinSegs segs

/-- Error taxonomy of `storage.go`.  Only the classifying structure and the
offending-path payloads are modelled; the human-readable `Msg` texts built
with `fmt.Sprintf` are not.  `substrate` stands for any raw OS error passed
through unclassified (including the defensive `"Infinite loop"` error of
`LocalDir.Delete`). -/
inductive StorError where
  | invalidPath (path : List Char)
  | pathDoesntExist (path : List Char)
  | tooLarge (what : List Char)
  | unspecifiedType
  | unregisteredType (t : List Char)
  | substrate
deriving DecidableEq

/-- Models `IsInvalidPathError` of `storage.go`: classification by kind. -/
def IsInvalidPathError : StorError → Bool
  | .invalidPath _ => true
  | _ => false

/-- Models `IsPathDoesntExistError` of `storage.go`. -/
def IsPathDoesntExistError : StorError → Bool
  | .pathDoesntExist _ => true
  | _ => false

/-- Models `IsTooLargeError` of `storage.go`. -/
def IsTooLargeError : StorError → Bool
  | .tooLarge _ => true
  | _ => false

/-- Models `CleanPath` of `util.go`: reject a path containing the forbidden
combination `..`, an absolute path, or a path with a byte outside
`validCharDict`; otherwise `path.Clean` it, mapping the `.` result to the
empty (root) path.  The Go function returns `("", err)` on failure; here the
failure is the `Except.error` case. -/
def CleanPath (filePath : List Char) : Except StorError (List Char) :=
  if containsDotDot filePath then .error (.invalidPath filePath)
  else if isAbs filePath then .error (.invalidPath filePath)
  else if !(filePath.all validChar) then .error (.invalidPath filePath)
  else
    let cleanPath := pathClean filePath
    .ok (if cleanPath = ['.'] then [] else cleanPath)

/-- Insertion into a Go map modelled as an association list: the new binding
replaces any previous binding of the key. -/
def mapInsert (k : List Char) (v : List Nat) (m : List (List Char × List Nat)) :
    List (List Char × List Nat) :=
  (k, v) :: m.filter (fun kv => !(kv.1 == k))

/-- The in-memory backend (`memory.go`): a map from canonical path to byte
content, modelled as an association list. -/
structure Memory where
  data : List (List Char × List Nat)
deriving DecidableEq

/-- Models `Memory.Load`: canonicalize, look the path up (absent means
`PathDoesntExistError` on the clean path), enforce `maxSize`
(`TooLargeError`), and return a copy of the content. -/
def Memory.Load (m : Memory) (filePath : List Char) (maxSize : Int) :
    Except StorError (List Nat) :=
  match CleanPath filePath with
  | .error e => .error e
  | .ok cleanPath =>
    match m.data.lookup cleanPath with
    | none => .error (.pathDoesntExist cleanPath)
    | some dataInStorage =>
      if (dataInStorage.length : Int) > maxSize then .error (.tooLarge cleanPath)
      else .ok dataInStorage

/-- Models `Memory.Save`: canonicalize and insert-or-replace a copy of the
data.  The Go method mutates the receiver; here the new state is the first
component and the returned error the second. -/
def Memory.Save (m : Memory) (filePath : List Char) (data : List Nat) :
    Memory × Option StorError :=
  match CleanPath filePath with
  | .error e => (m, some e)
  | .ok cleanPath => (⟨mapInsert cleanPath data m.data⟩, none)

/-- Models `Memory.Delete` (current revision): canonicalize, report
`PathDoesntExistError` when the key is absent, otherwise remove the entry. -/
def Memory.Delete (m : Memory) (filePath : List Char) : Memory × Option StorError :=
  match CleanPath filePath with
  | .error e => (m, some e)
  | .ok cleanPath =>
    match m.data.lookup cleanPath with
    | none => (m, some (.pathDoesntExist cleanPath))
    | some _ => (⟨m.data.filter (fun kv => !(kv.1 == cleanPath))⟩, none)

/-- The per-key step of `Memory.List`'s iteration: a key under the prefix is
either an immediate file (no further separator) or contributes its first
segment as a deduplicated immediate subdirectory. -/
def memListStep (pfx : List Char) (acc : List (List Char) × List (List Char))
    (key : List Char) : List (List Char) × List (List Char) :=
  if pfx.isPrefixOf key then
    let withoutPfx := key.drop pfx.length
    match withoutPfx.findIdx? (fun c => c == '/') with
    | none => (acc.1 ++ [pfx ++ withoutPfx], acc.2)
    | some slashIdx =>
      let fullPath := pfx ++ withoutPfx.take slashIdx
      if fullPath ∈ acc.2 then acc else (acc.1, acc.2 ++ [fullPath])
  else acc

/-- Models `Memory.List`: canonicalize to a prefix (`clean + "/"`, or the
empty prefix for the root), then partition the matching keys into immediate
files and deduplicated immediate subdirectories.  Go iterates the map in an
unspecified order; the model folds over the association list in list
order (the claims checked here do not depend on the order). -/
def Memory.List (m : Memory) (filePath : List Char) :
    Except StorError (List (List Char) × List (List Char)) :=
  match CleanPath filePath with
  | .error e => .error e
  | .ok cleanPath =>
    let pfx := if cleanPath = [] then cleanPath else cleanPath ++ ['/']
    .ok ((m.data.map Prod.fst).foldl (memListStep pfx) ([], []))

/-!  The local-directory backend (`localdir.go`).  The POSIX substrate is
modelled explicitly: a filesystem state is a list of regular files (absolute
path and content) together with a list of existing directories; the host
separator is `/` and `filepath.FromSlash` is the identity.  `filepath.Abs`
is modelled for the absolute paths this backend feeds it (the base directory
is absolute by construction), where Go's `Abs` returns `Clean` of its
argument. -/

/-- Filesystem state of the local-directory substrate. -/
structure FS where
  files : List (List Char × List Nat)
  dirs : List (List Char)
deriving DecidableEq

/-- Models `filepath.Abs` on the already-absolute paths arising here:
`Abs` of an absolute path is its `Clean`. -/
def filepathAbs (p : List Char) : List Char := pathClean p

/-- Models `filepath.Join` of two elements: the non-empty elements joined
with the separator, then `Clean`ed; all-empty input yields the empty path. -/
def filepathJoin (a b : List Char) : List Char :=
  if a = [] then (if b = [] then [] else pathClean b)
  else if b = [] then pathClean a
  else pathClean (a ++ '/' :: b)

/-- Models `filepath.Dir`: everything up to and including the final
separator, `Clean`ed (yielding `.` when there is no separator). -/
def dirOf (p : List Char) : List Char :=
  pathClean ((p.reverse.dropWhile (fun c => !(c == '/'))).reverse)

/-- Models `addTrailingSeparator` of `localdir.go`. -/
def addTrailingSeparator (path : List Char) : List Char :=
  match path.getLast? with
  | none => ['/']
  | some c => if c = '/' then path else path ++ ['/']

/-- Models `escapesDir` of `localdir.go`: absolutize both paths, append a
trailing separator to both, and report escape when the base is not a prefix
of the path. -/
def escapesDir (path baseDir : List Char) : Bool :=
  let p := filepathAbs path
  let b := filepathAbs baseDir
  !((addTrailingSeparator b).isPrefixOf (addTrailingSeparator p))

/-- The local-directory backend: its single absolute base directory. -/
structure LocalDir where
  BaseDir : List Char
deriving DecidableEq

/-- Models `LocalDir.getFullPath`: canonicalize the logical path, join it
onto the base directory, absolutize, and double-check that the result does
not escape the base directory (the source stores a formatted message in the
error's `Path` field; the model carries the offending full path). -/
def getFullPath (l : LocalDir) (filePath : List Char) : Except StorError (List Char) :=
  match CleanPath filePath with
  | .error e => .error e
  | .ok cleanPath =>
    let fullPath := filepathAbs (filepathJoin l.BaseDir cleanPath)
    if escapesDir fullPath l.BaseDir then .error (.invalidPath fullPath)
    else .ok fullPath

/-- The entries a directory listing of `d` reports: every file or directory
whose `filepath.Dir` is `d`. -/
def FS.entriesOf (fs : FS) (d : List Char) : List (List Char) :=
  (fs.files.map Prod.fst ++ fs.dirs).filter (fun e => dirOf e == d)

/-- Models `ioutil.ReadDir`: fails when the directory does not exist. -/
def FS.readDir (fs : FS) (d : List Char) : Option (List (List Char)) :=
  if d ∈ fs.dirs then some (fs.entriesOf d) else none

/-- Error cases of `os.Remove` distinguished by the code: a not-exist error
(`os.IsNotExist`) versus any other failure (such as a non-empty directory). -/
inductive RmErr where
  | notExist
  | otherErr
deriving DecidableEq

/-- Models `os.Remove`: removes a file, or an empty directory; fails with a
not-exist error when the path names neither. -/
def FS.osRemove (fs : FS) (p : List Char) : Except RmErr FS :=
  if (fs.files.lookup p).isSome then
    .ok { fs with files := fs.files.filter (fun kv => !(kv.1 == p)) }
  else if p ∈ fs.dirs then
    if fs.entriesOf p = [] then .ok { fs with dirs := fs.dirs.filter (fun d => !(d == p)) }
    else .error .otherErr
  else .error .notExist

/-- `os.Remove` with the error discarded, as in the pruning loop of
`LocalDir.Delete`. -/
def FS.removeQuiet (fs : FS) (p : List Char) : FS :=
  match fs.osRemove p with
  | .ok fs₁ => fs₁
  | .error _ => fs

/-- Models `os.Stat` as far as the code inspects it: a file (with its size)
or a directory; `none` is the not-exist error. -/
inductive StatInfo where
  | fileInfo (size : Int)
  | dirInfo
deriving DecidableEq

/-- Size reported by `os.Stat`; the size of a directory is substrate-defined
and never inspected by the claims, modelled as `0`. -/
def StatInfo.size : StatInfo → Int
  | .fileInfo s => s
  | .dirInfo => 0

/-- Models `os.Stat`. -/
def FS.stat (fs : FS) (p : List Char) : Option StatInfo :=
  match fs.files.lookup p with
  | some d => some (.fileInfo (d.length : Int))
  | none => if p ∈ fs.dirs then some .dirInfo else none

/-- Models `ioutil.ReadFile`. -/
def FS.readFile (fs : FS) (p : List Char) : Option (List Nat) :=
  fs.files.lookup p

/-- Models `ioutil.WriteFile` with `O_CREATE|O_TRUNC`: fails when the path
is a directory or its parent directory does not exist; otherwise creates or
fully replaces the file. -/
def FS.writeFile (fs : FS) (p : List Char) (data : List Nat) : Option FS :=
  if p ∈ fs.dirs then none
  else if dirOf p ∈ fs.dirs then some { fs with files := mapInsert p data fs.files }
  else none

/-- Models `os.MkdirAll`: an existing directory is fine, an existing file in
the chain is an error (nothing is created, as in Go, where the error
propagates before any `Mkdir` runs), otherwise the parents are created
recursively and then the directory itself.  Recursion is bounded by a fuel
argument (`filepath.Dir` strictly shortens real paths). -/
def FS.mkdirAll (fs : FS) (d : List Char) : Nat → Except Unit FS
  | 0 => .error ()
  | fuel + 1 =>
    if d ∈ fs.dirs then .ok fs
    else if (fs.files.lookup d).isSome then .error ()
    else if dirOf d = d then .ok { fs with dirs := d :: fs.dirs }
    else
      match fs.mkdirAll (dirOf d) fuel with
      | .error e => .error e
      | .ok fs₁ => .ok { fs₁ with dirs := d :: fs₁.dirs }

/-- Models `LocalDir.Meta`: resolve, stat (missing maps to
`PathDoesntExistError` on the original logical path). -/
def LocalDir.Meta (l : LocalDir) (fs : FS) (filePath : List Char) :
    Except StorError Int :=
  match getFullPath l filePath with
  | .error e => .error e
  | .ok fullPath =>
    match fs.stat fullPath with
    | none => .error (.pathDoesntExist filePath)
    | some info => .ok info.size

/-- Models `LocalDir.Exist`: resolve and stat; not-exist maps to `false`
with no error. -/
def LocalDir.Exist (l : LocalDir) (fs : FS) (filePath : List Char) :
    Except StorError Bool :=
  match getFullPath l filePath with
  | .error e => .error e
  | .ok fullPath =>
    match fs.stat fullPath with
    | none => .ok false
    | some _ => .ok true

/-- Models `LocalDir.Load`: resolve, stat first (missing maps to
`PathDoesntExistError`, a size above `maxSize` to `TooLargeError`, both on
the original logical path, without reading the file), then read. -/
def LocalDir.Load (l : LocalDir) (fs : FS) (filePath : List Char) (maxSize : Int) :
    Except StorError (List Nat) :=
  match getFullPath l filePath with
  | .error e => .error e
  | .ok fullPath =>
    match fs.stat fullPath with
    | none => .error (.pathDoesntExist filePath)
    | some info =>
      if info.size > maxSize then .error (.tooLarge filePath)
      else
        match fs.readFile fullPath with
        | some data => .ok data
        | none => .error .substrate

/-- Models `LocalDir.Save`: resolve, `MkdirAll` the parent directory (Go
assigns this call's error to `err` but immediately overwrites it, so the
failure is discarded), then write the file. -/
def LocalDir.Save (l : LocalDir) (fs : FS) (filePath : List Char) (data : List Nat) :
    FS × Option StorError :=
  match getFullPath l filePath with
  | .error e => (fs, some e)
  | .ok fullPath =>
    let dirPath := dirOf fullPath
    let fs₁ :=
      match fs.mkdirAll dirPath (dirPath.length + 1) with
      | .ok f => f
      | .error _ => fs
    match fs₁.writeFile fullPath data with
    | some fs₂ => (fs₂, none)
    | none => (fs₁, some .substrate)

/-- The upward pruning loop of `LocalDir.Delete`: climb one directory at a
time; stop on reaching or escaping the base directory or on a non-empty
directory; remove an empty directory (ignoring removal errors) and continue.
The source caps the loop at `i > 1000` iterations with an
`"Infinite loop"` error; the fuel argument counts the remaining allowed
iterations, so the loop is entered with fuel `1001`. -/
def pruneLoop (l : LocalDir) (fs : FS) (parentDir : List Char) :
    Nat → FS × Option StorError
  | 0 => (fs, some .substrate)
  | fuel + 1 =>
    if escapesDir (dirOf parentDir) l.BaseDir || dirOf parentDir = l.BaseDir then
      (fs, none)
    else
      match fs.readDir (dirOf parentDir) with
      | none => (fs, some .substrate)
      | some entries =>
        if 0 < entries.length then (fs, none)
        else pruneLoop l (fs.removeQuiet (dirOf parentDir)) (dirOf parentDir) fuel

/-- Models `LocalDir.Delete`: resolve, remove (not-exist maps to
`PathDoesntExistError` on the original logical path), then prune empty
ancestor directories upward until the base directory. -/
def LocalDir.Delete (l : LocalDir) (fs : FS) (filePath : List Char) :
    FS × Option StorError :=
  match getFullPath l filePath with
  | .error e => (fs, some e)
  | .ok fullPath =>
    match fs.osRemove fullPath with
    | .error .notExist => (fs, some (.pathDoesntExist filePath))
    | .error .otherErr => (fs, some .substrate)
    | .ok fs₁ => pruneLoop l fs₁ fullPath 1001

/-- Well-formedness of a filesystem state, as guaranteed by a real POSIX
tree: every file's parent directory exists, every directory is the root or
has an existing parent distinct from itself, and no path is simultaneously
a file and a directory. -/
def FS.wf (fs : FS) : Prop :=
  (∀ f ∈ fs.files.map Prod.fst, dirOf f ∈ fs.dirs) ∧
  (∀ d ∈ fs.dirs, d = ['/'] ∨ (dirOf d ∈ fs.dirs ∧ dirOf d ≠ d)) ∧
  (∀ x ∈ fs.dirs, fs.files.lookup x = none)

instance (fs : FS) : Decidable fs.wf := by
  unfold FS.wf
  infer_instance

/-- The strict ancestors of `p` that lie strictly inside the base directory,
from the innermost outward, exactly as the pruning walk of
`LocalDir.Delete` visits them (bounded by the same fuel). -/
def insideChain (l : LocalDir) : Nat → List Char → List (List Char)
  | 0, _ => []
  | fuel + 1, p =>
    if escapesDir (dirOf p) l.BaseDir || dirOf p = l.BaseDir then []
    else dirOf p :: insideChain l fuel (dirOf p)

/-!  The backend-type registry (`storage.go`).  The package-global
`typeFactoryMap` is modelled as an explicit association list from type names
to factory functions; the backend type produced by a factory is a type
parameter. -/

/-- Models `Conf` of `storage.go`. -/
structure Conf where
  type : List Char
  path : List Char

/-- Models `TypeUnspecified`: the reserved empty type value. -/
def TypeUnspecified : List Char := []

/-- MaxTypeLen of `storage.go`. -/
def MaxTypeLen : Nat := 20

/-- Models `RegisterType`: the panics of the source (an over-long, the
unspecified, or an already-registered type) are the `none` result; otherwise
the binding is added to the registry. -/
def RegisterType {σ : Type} (reg : List (List Char × (Conf → Except StorError σ)))
    (storageType : List Char) (factory : Conf → Except StorError σ) :
    Option (List (List Char × (Conf → Except StorError σ))) :=
  if MaxTypeLen < storageType.length then none
  else if storageType = TypeUnspecified then none
  else if (reg.lookup storageType).isSome then none
  else some ((storageType, factory) :: reg)

/-- Models `New` of `storage.go`: an unspecified type fails with
`UnspecifiedTypeError`, an unregistered type with `UnregisteredTypeError`
carrying the type, and otherwise the registered factory is invoked on the
configuration and its result returned unchanged. -/
def New {σ : Type} (reg : List (List Char × (Conf → Except StorError σ)))
    (conf : Conf) : Except StorError σ :=
  if conf.type = TypeUnspecified then .error .unspecifiedType
  else
    match reg.lookup conf.type with
    | none => .error (.unregisteredType conf.type)
    | some factory => factory conf

/-!  Concrete deep-chain scenario used to exhibit the behavior of
`LocalDir.Delete`'s capped pruning loop on directory chains deeper than its
1000-iteration bound. -/

/-- The absolute path `/b/a/a/.../a` with `k` trailing `a` segments. -/
def deepPath : Nat → List Char
  | 0 => '/' :: 'b' :: []
  | k + 1 => deepPath k ++ '/' :: 'a' :: []

/-- The logical path `a/a/.../a` with `k + 1` segments. -/
def logicalDeep : Nat → List Char
  | 0 => ['a']
  | k + 1 => logicalDeep k ++ '/' :: 'a' :: []

/-- The directory set of a straight chain below the base `/b`: the root, the
base, and `deepPath 1 .. deepPath m`. -/
def chainDirs : Nat → List (List Char)
  | 0 => [['/'], deepPath 0]
  | m + 1 => chainDirs m ++ [deepPath (m + 1)]

/-- A base directory `/b` holding one file at depth 1002. -/
def deepFS : FS := ⟨[(deepPath 1002, [7])], chainDirs 1001⟩

/-!  Claim C1: traversal rejection by the sanitizer. -/

theorem cleanPath_error_eq (p : List Char) (e : StorError)
    (h : CleanPath p = .error e) : e = .invalidPath p := by
  unfold CleanPath at h
  by_cases h1 : containsDotDot p = true
  · rw [if_pos h1] at h
    exact (Except.error.inj h).symm
  · rw [if_neg h1] at h
    by_cases h2 : isAbs p = true
    · rw [if_pos h2] at h
      exact (Except.error.inj h).symm
    · rw [if_neg h2] at h
      by_cases h3 : p.all validChar = true
      · rw [if_neg (by simp [h3])] at h
        cases h
      · rw [if_pos (by simp [Bool.not_eq_true] at h3; simp [h3])] at h
        exact (Except.error.inj h).symm

theorem cleanPath_invalid (p : List Char)
    (h : containsDotDot p = true ∨ isAbs p = true ∨ p.all validChar = false) :
    CleanPath p = .error (.invalidPath p) := by
  unfold CleanPath
  by_cases h1 : containsDotDot p = true
  · rw [if_pos h1]
  · rw [if_neg h1]
    by_cases h2 : isAbs p = true
    · rw [if_pos h2]
    · rw [if_neg h2]
      have h3 : p.all validChar = false := by
        rcases h with h | h | h
        · exact absurd h h1
        · exact absurd h h2
        · exact h
      rw [if_pos (by simp [h3])]

/-- Claim C1: a raw path containing the two-character sequence `..`, or
beginning with `/`, or containing a byte outside the allowed set is rejected
by `CleanPath` with an `InvalidPathError` (and an empty canonical path, the
absence of an `ok` value), and every backend mutation on such a path returns
that error with the backend state untouched, before any substrate
operation. -/
theorem cleanPath_traversal_rejection (p : List Char)
    (h : containsDotDot p = true ∨ isAbs p = true ∨ p.all validChar = false) :
    CleanPath p = .error (.invalidPath p) ∧
    (∀ m : Memory, ∀ d, Memory.Save m p d = (m, some (.invalidPath p))) ∧
    (∀ m : Memory, Memory.Delete m p = (m, some (.invalidPath p))) ∧
    (∀ m : Memory, ∀ maxSize, Memory.Load m p maxSize = .error (.invalidPath p)) ∧
    (∀ l : LocalDir, ∀ fs d, LocalDir.Save l fs p d = (fs, some (.invalidPath p))) ∧
    (∀ l : LocalDir, ∀ fs, LocalDir.Delete l fs p = (fs, some (.invalidPath p))) := by
  have hc := cleanPath_invalid p h
  refine ⟨hc, ?_, ?_, ?_, ?_, ?_⟩
  · intro m d; simp [Memory.Save, hc]
  · intro m; simp [Memory.Delete, hc]
  · intro m maxSize; simp [Memory.Load, hc]
  · intro l fs d; simp [LocalDir.Save, getFullPath, hc]
  · intro l fs; simp [LocalDir.Delete, getFullPath, hc]

/-- Witness for C1 at the concrete input `../file1` from the repository's
tests. -/
theorem cleanPath_traversal_rejection_witness :
    CleanPath ("../file1".toList) = .error (.invalidPath ("../file1".toList)) ∧
    Memory.Save ⟨[]⟩ ("../file1".toList) [0] =
      (⟨[]⟩, some (.invalidPath ("../file1".toList))) ∧
    LocalDir.Delete ⟨"/b".toList⟩ ⟨[], []⟩ ("../file1".toList) =
      (⟨[], []⟩, some (.invalidPath ("../file1".toList))) := by
  have h := cleanPath_traversal_rejection ("../file1".toList) (Or.inl (by decide))
  exact ⟨h.1, h.2.1 ⟨[]⟩ [0], h.2.2.2.2.2 ⟨"/b".toList⟩ ⟨[], []⟩⟩

/-!  Claim C7: the registry dispatch of `New`. -/

/-- Claim C7: `New` fails with `UnspecifiedTypeError` on the reserved empty
type, with `UnregisteredTypeError` carrying the type when it was never
registered, and otherwise returns exactly the registered factory's result on
the configuration. -/
theorem new_registry_dispatch {σ : Type}
    (reg : List (List Char × (Conf → Except StorError σ))) (conf : Conf) :
    (conf.type = TypeUnspecified → New reg conf = .error .unspecifiedType) ∧
    (conf.type ≠ TypeUnspecified → reg.lookup conf.type = none →
      New reg conf = .error (.unregisteredType conf.type)) ∧
    (∀ factory, conf.type ≠ TypeUnspecified → reg.lookup conf.type = some factory →
      New reg conf = factory conf) := by
  refine ⟨?_, ?_, ?_⟩
  · intro h; simp [New, h]
  · intro h hl; simp [New, h, hl]
  · intro factory h hl; simp [New, h, hl]

/-- Witness for C7: a concrete registry holding one factory; an unspecified
type, an unregistered type, and a registered type each behave as claimed. -/
theorem new_registry_dispatch_witness :
    New [("Memory".toList, fun _ => Except.ok 7)] ⟨[], []⟩ =
      (.error .unspecifiedType : Except StorError Nat) ∧
    New [("Memory".toList, fun _ => Except.ok 7)] ⟨"S3".toList, []⟩ =
      (.error (.unregisteredType "S3".toList) : Except StorError Nat) ∧
    New [("Memory".toList, fun _ => Except.ok 7)] ⟨"Memory".toList, []⟩ =
      (.ok 7 : Except StorError Nat) := by
  refine ⟨?_, ?_, ?_⟩
  · exact (new_registry_dispatch [("Memory".toList, fun _ => Except.ok 7)] ⟨[], []⟩).1 rfl
  · exact (new_registry_dispatch [("Memory".toList, fun _ => Except.ok 7)]
      ⟨"S3".toList, []⟩).2.1 (by decide) rfl
  · exact (new_registry_dispatch [("Memory".toList, fun _ => Except.ok 7)]
      ⟨"Memory".toList, []⟩).2.2 (fun _ => Except.ok 7) (by decide) rfl

/-!  Shared association-list lemmas. -/

theorem lookup_mapInsert_self (k : List Char) (v : List Nat)
    (m : List (List Char × List Nat)) : (mapInsert k v m).lookup k = some v := by
  simp [mapInsert, List.lookup]

/-!  Claim C5: deleting a missing path is an error, on both backends. -/

/-- Claim C5: on both backends, deleting a syntactically valid path with no
entry in the backend's state yields a `PathDoesntExistError` and leaves the
state unchanged; in particular the in-memory backend reports the missing
key rather than silently succeeding, like the local-directory backend. -/
theorem delete_missing_path_errors :
    (∀ (m : Memory) (p cp : List Char), CleanPath p = .ok cp →
      m.data.lookup cp = none →
      Memory.Delete m p = (m, some (.pathDoesntExist cp))) ∧
    (∀ (l : LocalDir) (fs : FS) (p full : List Char), getFullPath l p = .ok full →
      fs.files.lookup full = none → full ∉ fs.dirs →
      LocalDir.Delete l fs p = (fs, some (.pathDoesntExist p))) := by
  constructor
  · intro m p cp hcp hl
    simp [Memory.Delete, hcp, hl]
  · intro l fs p full hfull hl hd
    simp [LocalDir.Delete, hfull, FS.osRemove, hl, hd]

/-- Witness for C5: deleting `a/c` when only `a/b` is stored (in memory),
and deleting `d1/f` on an empty base directory (local backend). -/
theorem delete_missing_path_errors_witness :
    Memory.Delete ⟨[("a/b".toList, [1])]⟩ ("a/c".toList) =
      (⟨[("a/b".toList, [1])]⟩, some (.pathDoesntExist ("a/c".toList))) ∧
    LocalDir.Delete ⟨"/b".toList⟩ ⟨[], ["/".toList, "/b".toList]⟩ ("d1/f".toList) =
      (⟨[], ["/".toList, "/b".toList]⟩, some (.pathDoesntExist ("d1/f".toList))) := by
  constructor
  · exact delete_missing_path_errors.1 ⟨[("a/b".toList, [1])]⟩ ("a/c".toList)
      ("a/c".toList) rfl rfl
  · exact delete_missing_path_errors.2 ⟨"/b".toList⟩ ⟨[], ["/".toList, "/b".toList]⟩
      ("d1/f".toList) ("/b/d1/f".toList) rfl rfl (by decide)

/-!  Claim C6: size enforcement of `Load`, on both backends. -/

/-- Claim C6: for a stored path of size `s`, `Load(p, maxSize)` fails with
`TooLargeError` and no content whenever `s > maxSize`, and succeeds with the
full content when `s = maxSize`, on both backends. -/
theorem load_size_enforcement :
    (∀ (m : Memory) (p cp : List Char) (d : List Nat) (maxSize : Int),
      CleanPath p = .ok cp → m.data.lookup cp = some d →
      ((d.length : Int) > maxSize → Memory.Load m p maxSize = .error (.tooLarge cp)) ∧
      (maxSize = (d.length : Int) → Memory.Load m p maxSize = .ok d)) ∧
    (∀ (l : LocalDir) (fs : FS) (p full : List Char) (d : List Nat) (maxSize : Int),
      getFullPath l p = .ok full → fs.files.lookup full = some d →
      ((d.length : Int) > maxSize → LocalDir.Load l fs p maxSize = .error (.tooLarge p)) ∧
      (maxSize = (d.length : Int) → LocalDir.Load l fs p maxSize = .ok d)) := by
  constructor
  · intro m p cp d maxSize hcp hl
    constructor
    · intro hgt; simp [Memory.Load, hcp, hl, hgt]
    · intro heq; simp [Memory.Load, hcp, hl, heq]
  · intro l fs p full d maxSize hfull hl
    constructor
    · intro hgt
      simp [LocalDir.Load, hfull, FS.stat, hl, StatInfo.size, hgt]
    · intro heq
      simp [LocalDir.Load, hfull, FS.stat, hl, StatInfo.size, heq, FS.readFile]

/-- Witness for C6 on a 2-byte stored file with `maxSize` 1 (too large) and
`maxSize` 2 (exact fit), on both backends. -/
theorem load_size_enforcement_witness :
    Memory.Load ⟨[("f1".toList, [1, 2])]⟩ ("f1".toList) 1 =
      .error (.tooLarge ("f1".toList)) ∧
    Memory.Load ⟨[("f1".toList, [1, 2])]⟩ ("f1".toList) 2 = .ok [1, 2] ∧
    LocalDir.Load ⟨"/b".toList⟩ ⟨[("/b/f1".toList, [1, 2])], ["/".toList, "/b".toList]⟩
      ("f1".toList) 1 = .error (.tooLarge ("f1".toList)) ∧
    LocalDir.Load ⟨"/b".toList⟩ ⟨[("/b/f1".toList, [1, 2])], ["/".toList, "/b".toList]⟩
      ("f1".toList) 2 = .ok [1, 2] := by
  refine ⟨?_, ?_, ?_, ?_⟩
  · exact (load_size_enforcement.1 ⟨[("f1".toList, [1, 2])]⟩ ("f1".toList)
      ("f1".toList) [1, 2] 1 rfl rfl).1 (by decide)
  · exact (load_size_enforcement.1 ⟨[("f1".toList, [1, 2])]⟩ ("f1".toList)
      ("f1".toList) [1, 2] 2 rfl rfl).2 (by decide)
  · exact (load_size_enforcement.2 ⟨"/b".toList⟩
      ⟨[("/b/f1".toList, [1, 2])], ["/".toList, "/b".toList]⟩ ("f1".toList)
      ("/b/f1".toList) [1, 2] 1 rfl rfl).1 (by decide)
  · exact (load_size_enforcement.2 ⟨"/b".toList⟩
      ⟨[("/b/f1".toList, [1, 2])], ["/".toList, "/b".toList]⟩ ("f1".toList)
      ("/b/f1".toList) [1, 2] 2 rfl rfl).2 (by decide)

/-!  Claim C4: the save/load round trip, on both backends. -/

/-- Claim C4: saving content `d` at a canonical path and loading it back with
any `maxSize` at least `d`'s length succeeds and returns exactly `d`; for the
local-directory backend this holds for every state in which the save
succeeded. -/
theorem save_load_round_trip :
    (∀ (m : Memory) (p : List Char) (d : List Nat) (maxSize : Int),
      CleanPath p = .ok p → (d.length : Int) ≤ maxSize →
      (Memory.Save m p d).2 = none ∧
      Memory.Load (Memory.Save m p d).1 p maxSize = .ok d) ∧
    (∀ (l : LocalDir) (fs fs' : FS) (p full : List Char) (d : List Nat) (maxSize : Int),
      getFullPath l p = .ok full → LocalDir.Save l fs p d = (fs', none) →
      (d.length : Int) ≤ maxSize →
      LocalDir.Load l fs' p maxSize = .ok d) := by
  constructor
  · intro m p d maxSize hcp hle
    constructor
    · simp [Memory.Save, hcp]
    · simp [Memory.Save, Memory.Load, hcp, lookup_mapInsert_self, not_lt.mpr hle]
  · intro l fs fs' p full d maxSize hfull hsave hle
    unfold LocalDir.Save at hsave
    rw [hfull] at hsave
    simp only at hsave
    generalize hfs₁ : (match fs.mkdirAll (dirOf full) ((dirOf full).length + 1) with
      | .ok f => f
      | .error _ => fs) = fs₁ at hsave
    cases hw : fs₁.writeFile full d with
    | none =>
      rw [hw] at hsave
      exact absurd (congrArg Prod.snd hsave) (by simp)
    | some fs₂ =>
      rw [hw] at hsave
      have hfs' : fs₂ = fs' := congrArg Prod.fst hsave
      unfold FS.writeFile at hw
      by_cases hd : full ∈ fs₁.dirs
      · rw [if_pos hd] at hw; cases hw
      · rw [if_neg hd] at hw
        by_cases hpar : dirOf full ∈ fs₁.dirs
        · rw [if_pos hpar] at hw
          have hfs₂ : fs₂ = { fs₁ with files := mapInsert full d fs₁.files } :=
            (Option.some.inj hw).symm
          rw [← hfs', hfs₂]
          simp [LocalDir.Load, hfull, FS.stat, lookup_mapInsert_self,
            StatInfo.size, not_lt.mpr hle, FS.readFile]
        · rw [if_neg hpar] at hw; cases hw

/-- Witness for C4: round trip of `[1, 2, 3]` at `a/b` in memory, and of
`[7]` at `d1/d2/f` on a local base directory `/b`. -/
theorem save_load_round_trip_witness :
    (Memory.Save ⟨[]⟩ ("a/b".toList) [1, 2, 3]).2 = none ∧
    Memory.Load (Memory.Save ⟨[]⟩ ("a/b".toList) [1, 2, 3]).1 ("a/b".toList) 3 =
      .ok [1, 2, 3] ∧
    LocalDir.Load ⟨"/b".toList⟩
      ⟨[("/b/d1/d2/f".toList, [7])],
        ["/b/d1/d2".toList, "/b/d1".toList, "/".toList, "/b".toList]⟩
      ("d1/d2/f".toList) 1 = .ok [7] := by
  have h1 := save_load_round_trip.1 ⟨[]⟩ ("a/b".toList) [1, 2, 3] 3 rfl (by decide)
  refine ⟨h1.1, h1.2, ?_⟩
  exact save_load_round_trip.2 ⟨"/b".toList⟩ ⟨[], ["/".toList, "/b".toList]⟩
    ⟨[("/b/d1/d2/f".toList, [7])],
      ["/b/d1/d2".toList, "/b/d1".toList, "/".toList, "/b".toList]⟩
    ("d1/d2/f".toList) ("/b/d1/d2/f".toList) [7] 1 rfl rfl (by decide)

/-!  Claim C10: `Memory.List` on unpopulated paths. -/

theorem foldl_memListStep_nomatch (pfx : List Char) (keys : List (List Char))
    (acc : List (List Char) × List (List Char))
    (h : ∀ k ∈ keys, pfx.isPrefixOf k = false) :
    keys.foldl (memListStep pfx) acc = acc := by
  induction keys generalizing acc with
  | nil => rfl
  | cons k rest ih =>
    have hk : pfx.isPrefixOf k = false := h k (List.mem_cons_self k rest)
    have hstep : memListStep pfx acc k = acc := by
      simp [memListStep, hk]
    rw [List.foldl_cons, hstep]
    exact ih acc (fun x hx => h x (List.mem_cons_of_mem k hx))

/-- Claim C10: on the in-memory backend, listing a syntactically valid path
under which no key is stored (including a path naming a stored file) returns
empty file and directory lists with no error; and `Memory.List` never
returns a `PathDoesntExistError`. -/
theorem memory_list_no_exist_error :
    (∀ (m : Memory) (p cp : List Char), CleanPath p = .ok cp →
      (∀ k ∈ m.data.map Prod.fst,
        (if cp = [] then cp else cp ++ ['/']).isPrefixOf k = false) →
      Memory.List m p = .ok ([], [])) ∧
    (∀ (m : Memory) (p : List Char) (e : StorError),
      Memory.List m p = .error e → IsPathDoesntExistError e = false) := by
  constructor
  · intro m p cp hcp hks
    unfold Memory.List
    rw [hcp]
    simp only
    rw [foldl_memListStep_nomatch _ _ _ hks]
  · intro m p e hl
    unfold Memory.List at hl
    cases hc : CleanPath p with
    | error e' =>
      rw [hc] at hl
      have : e' = e := Except.error.inj hl
      rw [cleanPath_error_eq p e' hc] at this
      rw [← this]
      rfl
    | ok cp => rw [hc] at hl; cases hl

/-- Witness for C10: listing the stored file path `a/b` itself, and listing
the absent directory `zz`, both return empty lists on a one-entry store. -/
theorem memory_list_no_exist_error_witness :
    Memory.List ⟨[("a/b".toList, [1])]⟩ ("a/b".toList) = .ok ([], []) ∧
    Memory.List ⟨[("a/b".toList, [1])]⟩ ("zz".toList) = .ok ([], []) := by
  constructor
  · exact memory_list_no_exist_error.1 ⟨[("a/b".toList, [1])]⟩ ("a/b".toList)
      ("a/b".toList) rfl (by decide)
  · exact memory_list_no_exist_error.1 ⟨[("a/b".toList, [1])]⟩ ("zz".toList)
      ("zz".toList) rfl (by decide)

/-!  Toolbox: lemmas about `containsDotDot`, `splitSeg`, `joinSegs` and
`cleanSegs`, used to settle the idempotence and confinement claims. -/

theorem containsDotDot_two (c1 c2 : Char) (r : List Char) :
    containsDotDot (c1 :: c2 :: r) =
      ((c1 == '.' && c2 == '.') || containsDotDot (c2 :: r)) := rfl

theorem containsDotDot_cons (c : Char) {l : List Char}
    (h : containsDotDot l = true) : containsDotDot (c :: l) = true := by
  cases l with
  | nil => cases h
  | cons d rest =>
    rw [containsDotDot_two, h]
    simp

theorem containsDotDot_append_sep (s t : List Char)
    (hs : containsDotDot s = false) (ht : containsDotDot t = false) :
    containsDotDot (s ++ '/' :: t) = false := by
  induction s with
  | nil =>
    cases t with
    | nil => rfl
    | cons c rest =>
      show containsDotDot ('/' :: c :: rest) = false
      rw [containsDotDot_two, ht]
      simp
  | cons a s' ih =>
    cases s' with
    | nil =>
      cases t with
      | nil =>
        show containsDotDot (a :: '/' :: []) = false
        rw [containsDotDot_two]
        simp [containsDotDot]
      | cons c rest =>
        show containsDotDot (a :: '/' :: c :: rest) = false
        rw [containsDotDot_two, containsDotDot_two, ht]
        simp
    | cons b s'' =>
      show containsDotDot (a :: b :: (s'' ++ '/' :: t)) = false
      rw [containsDotDot_two] at hs ⊢
      rw [Bool.or_eq_false_iff] at hs
      rw [Bool.or_eq_false_iff]
      exact ⟨hs.1, ih hs.2⟩

theorem splitSeg_ne_nil (p : List Char) : splitSeg p ≠ [] := by
  cases p with
  | nil => simp [splitSeg]
  | cons c rest =>
    unfold splitSeg
    by_cases hc : c = '/'
    · rw [if_pos hc]; simp
    · rw [if_neg hc]
      cases splitSeg rest with
      | nil => simp
      | cons s ss => simp

theorem mem_splitSeg_no_slash (p s : List Char) (h : s ∈ splitSeg p) :
    '/' ∉ s := by
  induction p generalizing s with
  | nil =>
    simp [splitSeg] at h
    simp [h]
  | cons c rest ih =>
    unfold splitSeg at h
    by_cases hc : c = '/'
    · rw [if_pos hc] at h
      rcases List.mem_cons.mp h with h | h
      · simp [h]
      · exact ih s h
    · rw [if_neg hc] at h
      cases hsp : splitSeg rest with
      | nil => exact absurd hsp (splitSeg_ne_nil rest)
      | cons s₀ ss =>
        rw [hsp] at h
        rcases List.mem_cons.mp h with h | h
        · subst h
          intro hmem
          rcases List.mem_cons.mp hmem with h | h
          · exact hc h.symm
          · exact ih s₀ (hsp ▸ List.mem_cons_self s₀ ss) h
        · exact ih s (hsp ▸ List.mem_cons_of_mem s₀ h)

theorem mem_splitSeg_chars (p s : List Char) (h : s ∈ splitSeg p) :
    ∀ c ∈ s, c ∈ p := by
  induction p generalizing s with
  | nil =>
    simp [splitSeg] at h
    simp [h]
  | cons c rest ih =>
    unfold splitSeg at h
    by_cases hc : c = '/'
    · rw [if_pos hc] at h
      rcases List.mem_cons.mp h with h | h
      · simp [h]
      · intro x hx
        exact List.mem_cons_of_mem c (ih s h x hx)
    · rw [if_neg hc] at h
      cases hsp : splitSeg rest with
      | nil => exact absurd hsp (splitSeg_ne_nil rest)
      | cons s₀ ss =>
        rw [hsp] at h
        rcases List.mem_cons.mp h with h | h
        · subst h
          intro x hx
          rcases List.mem_cons.mp hx with h | h
          · simp [h]
          · exact List.mem_cons_of_mem c
              (ih s₀ (hsp ▸ List.mem_cons_self s₀ ss) x h)
        · intro x hx
          exact List.mem_cons_of_mem c
            (ih s (hsp ▸ List.mem_cons_of_mem s₀ h) x hx)

theorem splitSeg_head_char (p d : List Char) (c : Char) (ss : List (List Char))
    (h : splitSeg p = (c :: d) :: ss) : ∃ rest, p = c :: rest := by
  cases p with
  | nil => simp [splitSeg] at h
  | cons e rest =>
    unfold splitSeg at h
    by_cases he : e = '/'
    · rw [if_pos he] at h
      cases h
    · rw [if_neg he] at h
      cases hsp : splitSeg rest with
      | nil => exact absurd hsp (splitSeg_ne_nil rest)
      | cons s₀ ss₀ =>
        rw [hsp] at h
        have : e = c := by
          have := (List.cons.injEq _ _ _ _ ▸ h).1
          exact (List.cons.injEq _ _ _ _ ▸ this).1
        exact ⟨rest, by rw [this]⟩

theorem mem_splitSeg_cdd (p s : List Char) (h : s ∈ splitSeg p)
    (hdd : containsDotDot s = true) : containsDotDot p = true := by
  induction p generalizing s with
  | nil =>
    simp [splitSeg] at h
    rw [h] at hdd
    cases hdd
  | cons c rest ih =>
    unfold splitSeg at h
    by_cases hc : c = '/'
    · rw [if_pos hc] at h
      rcases List.mem_cons.mp h with h | h
      · rw [h] at hdd; cases hdd
      · exact containsDotDot_cons c (ih s h hdd)
    · rw [if_neg hc] at h
      cases hsp : splitSeg rest with
      | nil => exact absurd hsp (splitSeg_ne_nil rest)
      | cons s₀ ss =>
        rw [hsp] at h
        rcases List.mem_cons.mp h with h | h
        · subst h
          cases s₀ with
          | nil => cases hdd
          | cons d r =>
            unfold containsDotDot at hdd
            rcases Bool.or_eq_true_iff.mp hdd with hdd | hdd
            · have hcd : c = '.' ∧ d = '.' := by simpa using hdd
              obtain ⟨rest', hrest⟩ := splitSeg_head_char rest r d ss hsp
              subst hrest
              rw [containsDotDot_two, hcd.1, hcd.2]
              simp
            · have : containsDotDot (d :: r) = true := hdd
              have hmem : (d :: r) ∈ splitSeg rest := hsp ▸ List.mem_cons_self _ _
              exact containsDotDot_cons c (ih (d :: r) hmem this)
        · exact containsDotDot_cons c
            (ih s (hsp ▸ List.mem_cons_of_mem s₀ h) hdd)

theorem splitSeg_no_slash_eq (s : List Char) (h : '/' ∉ s) :
    splitSeg s = [s] := by
  induction s with
  | nil => rfl
  | cons c rest ih =>
    have hc : ¬(c = '/') := fun hx => h (hx ▸ List.mem_cons_self c rest)
    unfold splitSeg
    rw [if_neg hc, ih (fun hx => h (List.mem_cons_of_mem c hx))]

theorem splitSeg_cons (c : Char) (rest : List Char) :
    splitSeg (c :: rest) =
      if c = '/' then [] :: splitSeg rest
      else
        match splitSeg rest with
        | s :: ss => (c :: s) :: ss
        | [] => [[c]] := rfl

theorem splitSeg_append_sep (s t : List Char) (h : '/' ∉ s) :
    splitSeg (s ++ '/' :: t) = s :: splitSeg t := by
  induction s with
  | nil =>
    show splitSeg ('/' :: t) = [] :: splitSeg t
    rw [splitSeg_cons, if_pos rfl]
  | cons c rest ih =>
    have hc : ¬(c = '/') := fun hx => h (hx ▸ List.mem_cons_self c rest)
    show splitSeg (c :: (rest ++ '/' :: t)) = (c :: rest) :: splitSeg t
    rw [splitSeg_cons, if_neg hc, ih (fun hx => h (List.mem_cons_of_mem c hx))]

theorem mem_getLast?_self : ∀ (l : List Char) (c : Char), l.getLast? = some c → c ∈ l
  | [], _, h => by simp at h
  | [a], c, h => by
    have ha : a = c := by simpa using h
    exact ha ▸ List.mem_cons_self a []
  | a :: b :: r, c, h => by
    rw [List.getLast?_cons_cons] at h
    exact List.mem_cons_of_mem a (mem_getLast?_self (b :: r) c h)

theorem joinSegs_cons₂ (s t : List Char) (rest : List (List Char)) :
    joinSegs (s :: t :: rest) = s ++ '/' :: joinSegs (t :: rest) := rfl

theorem joinSegs_ne_nil (s : List Char) (rest : List (List Char)) (h : s ≠ []) :
    joinSegs (s :: rest) ≠ [] := by
  cases rest with
  | nil => exact h
  | cons t r =>
    rw [joinSegs_cons₂]
    cases s with
    | nil => exact absurd rfl h
    | cons c s' => simp

theorem joinSegs_head? (s : List Char) (rest : List (List Char)) (h : s ≠ []) :
    (joinSegs (s :: rest)).head? = s.head? := by
  cases rest with
  | nil => rfl
  | cons t r =>
    rw [joinSegs_cons₂]
    cases s with
    | nil => exact absurd rfl h
    | cons c s' => rfl

theorem joinSegs_all_valid : ∀ L : List (List Char),
    (∀ s ∈ L, s.all validChar = true) → (joinSegs L).all validChar = true
  | [], _ => rfl
  | [s], h => h s (List.mem_cons_self s [])
  | s :: t :: rest, h => by
    rw [joinSegs_cons₂, List.all_append, List.all_cons]
    rw [h s (List.mem_cons_self s (t :: rest)),
      joinSegs_all_valid (t :: rest) (fun x hx => h x (List.mem_cons_of_mem s hx))]
    rfl

theorem joinSegs_cdd : ∀ L : List (List Char),
    (∀ s ∈ L, containsDotDot s = false) → containsDotDot (joinSegs L) = false
  | [], _ => rfl
  | [s], h => h s (List.mem_cons_self s [])
  | s :: t :: rest, h => by
    rw [joinSegs_cons₂]
    exact containsDotDot_append_sep s (joinSegs (t :: rest))
      (h s (List.mem_cons_self s (t :: rest)))
      (joinSegs_cdd (t :: rest) (fun x hx => h x (List.mem_cons_of_mem s hx)))

theorem joinSegs_getLast_ne_slash : ∀ L : List (List Char), L ≠ [] →
    (∀ s ∈ L, s ≠ [] ∧ '/' ∉ s) → (joinSegs L).getLast? ≠ some '/'
  | [], hL, _ => absurd rfl hL
  | [s], _, h => by
    intro hc
    exact (h s (List.mem_cons_self s [])).2 (mem_getLast?_self s '/' hc)
  | s :: t :: rest, _, h => by
    rw [joinSegs_cons₂,
      List.getLast?_append_of_ne_nil s
        (show ('/' :: joinSegs (t :: rest)) ≠ [] by simp)]
    have hrec := joinSegs_getLast_ne_slash (t :: rest) (by simp)
      (fun x hx => h x (List.mem_cons_of_mem s hx))
    have hne : joinSegs (t :: rest) ≠ [] :=
      joinSegs_ne_nil t rest (h t (List.mem_cons_of_mem s (List.mem_cons_self t rest))).1
    cases hj : joinSegs (t :: rest) with
    | nil => exact absurd hj hne
    | cons a r =>
      rw [hj] at hrec
      rw [List.getLast?_cons_cons]
      exact hrec

theorem splitSeg_joinSegs : ∀ L : List (List Char), L ≠ [] →
    (∀ s ∈ L, '/' ∉ s) → splitSeg (joinSegs L) = L
  | [], hL, _ => absurd rfl hL
  | [s], _, h => splitSeg_no_slash_eq s (h s (List.mem_cons_self s []))
  | s :: t :: rest, _, h => by
    rw [joinSegs_cons₂,
      splitSeg_append_sep s (joinSegs (t :: rest)) (h s (List.mem_cons_self s (t :: rest))),
      splitSeg_joinSegs (t :: rest) (by simp) (fun x hx => h x (List.mem_cons_of_mem s hx))]

theorem mem_foldl_elemStep (r : Bool) (L : List (List Char))
    (acc : List (List Char)) (s : List Char)
    (h : s ∈ List.foldl (elemStep r) acc L) :
    s ∈ acc ∨ (s ∈ L ∧ s ≠ [] ∧ s ≠ ['.']) := by
  induction L generalizing acc with
  | nil => exact Or.inl h
  | cons e L' ih =>
    rw [List.foldl_cons] at h
    rcases ih (elemStep r acc e) h with hmem | hmem
    · unfold elemStep at hmem
      by_cases he1 : e = []
      · rw [if_pos he1] at hmem; exact Or.inl hmem
      · rw [if_neg he1] at hmem
        by_cases he2 : e = ['.']
        · rw [if_pos he2] at hmem; exact Or.inl hmem
        · rw [if_neg he2] at hmem
          by_cases he3 : e = ['.', '.']
          · rw [if_pos he3] at hmem
            cases acc with
            | nil =>
              cases r with
              | true => rw [if_pos rfl] at hmem; cases hmem
              | false =>
                rw [if_neg (by simp)] at hmem
                rcases List.mem_cons.mp hmem with h' | h'
                · exact Or.inr ⟨h' ▸ List.mem_cons_self e L', h' ▸ he1, h' ▸ he2⟩
                · cases h'
            | cons top rest =>
              have hmem' : s ∈ (if top = ['.', '.'] then e :: top :: rest else rest) := hmem
              by_cases ht : top = ['.', '.']
              · rw [if_pos ht] at hmem'
                rcases List.mem_cons.mp hmem' with h' | h'
                · exact Or.inr ⟨h' ▸ List.mem_cons_self e L', h' ▸ he1, h' ▸ he2⟩
                · exact Or.inl h'
              · rw [if_neg ht] at hmem'
                exact Or.inl (List.mem_cons_of_mem top hmem')
          · rw [if_neg he3] at hmem
            rcases List.mem_cons.mp hmem with h' | h'
            · exact Or.inr ⟨h' ▸ List.mem_cons_self e L', h' ▸ he1, h' ▸ he2⟩
            · exact Or.inl h'
    · exact Or.inr ⟨List.mem_cons_of_mem e hmem.1, hmem.2⟩

theorem foldl_elemStep_normal (r : Bool) (L : List (List Char)) (acc : List (List Char))
    (h : ∀ e ∈ L, e ≠ [] ∧ e ≠ ['.'] ∧ e ≠ ['.', '.']) :
    List.foldl (elemStep r) acc L = L.reverse ++ acc := by
  induction L generalizing acc with
  | nil => simp
  | cons e L' ih =>
    have he := h e (List.mem_cons_self e L')
    have hstep : elemStep r acc e = e :: acc := by
      unfold elemStep
      rw [if_neg he.1, if_neg he.2.1, if_neg he.2.2]
    rw [List.foldl_cons, hstep,
      ih (e :: acc) (fun x hx => h x (List.mem_cons_of_mem e hx))]
    simp

theorem mem_cleanSegs (r : Bool) (L : List (List Char)) (s : List Char)
    (h : s ∈ cleanSegs r L) : s ∈ L ∧ s ≠ [] ∧ s ≠ ['.'] := by
  unfold cleanSegs at h
  rw [List.mem_reverse] at h
  rcases mem_foldl_elemStep r L [] s h with h' | h'
  · cases h'
  · exact h'

theorem cleanSegs_normal (r : Bool) (L : List (List Char))
    (h : ∀ e ∈ L, e ≠ [] ∧ e ≠ ['.'] ∧ e ≠ ['.', '.']) : cleanSegs r L = L := by
  unfold cleanSegs
  rw [foldl_elemStep_normal r L [] h]
  simp

theorem isAbs_cons (c : Char) (x : List Char) : isAbs (c :: x) = (c == '/') := rfl

theorem isAbs_joinSegs_false (s₁ : List Char) (rest : List (List Char))
    (h1 : s₁ ≠ []) (h2 : '/' ∉ s₁) : isAbs (joinSegs (s₁ :: rest)) = false := by
  cases s₁ with
  | nil => exact absurd rfl h1
  | cons c s' =>
    have hc : (c == '/') = false := by
      rw [beq_eq_false_iff_ne]
      intro he
      exact h2 (he ▸ List.mem_cons_self c s')
    cases rest with
    | nil => exact hc
    | cons t r =>
      rw [joinSegs_cons₂]
      show isAbs (c :: (s' ++ '/' :: joinSegs (t :: r))) = false
      exact hc

theorem pathClean_eq_of_not_rooted (p : List Char) (hp : p ≠ []) (ha : isAbs p = false) :
    pathClean p =
      if cleanSegs false (splitSeg p) = [] then ['.']
      else joinSegs (cleanSegs false (splitSeg p)) := by
  unfold pathClean
  rw [if_neg hp, ha]
  rfl

theorem pathClean_eq_of_rooted (p : List Char) (ha : isAbs p = true) :
    pathClean p = '/' :: joinSegs (cleanSegs true (splitSeg p)) := by
  have hp : p ≠ [] := by
    intro he
    rw [he] at ha
    cases ha
  unfold pathClean
  rw [if_neg hp, ha]
  rfl

theorem cleanPath_ok_elim (p q : List Char) (h : CleanPath p = .ok q) :
    containsDotDot p = false ∧ isAbs p = false ∧ p.all validChar = true ∧
    q = (if pathClean p = ['.'] then [] else pathClean p) := by
  unfold CleanPath at h
  by_cases h1 : containsDotDot p = true
  · rw [if_pos h1] at h; cases h
  · rw [if_neg h1] at h
    by_cases h2 : isAbs p = true
    · rw [if_pos h2] at h; cases h
    · rw [if_neg h2] at h
      by_cases h3 : p.all validChar = true
      · rw [if_neg (by simp [h3])] at h
        exact ⟨Bool.eq_false_iff.mpr h1, Bool.eq_false_iff.mpr h2, h3,
          (Except.ok.inj h).symm⟩
      · rw [if_pos (by simp [Bool.eq_false_iff.mpr h3])] at h
        cases h

/-- Claim C8: `CleanPath` is idempotent on its successful outputs: if
`CleanPath p` succeeds with canonical path `q`, then `CleanPath q` succeeds
and returns `q` again. -/
theorem cleanPath_idempotent (p q : List Char) (h : CleanPath p = .ok q) :
    CleanPath q = .ok q := by
  obtain ⟨h1, h2, h3, hq⟩ := cleanPath_ok_elim p q h
  by_cases hdot : pathClean p = ['.']
  · rw [if_pos hdot] at hq
    subst hq
    rfl
  · rw [if_neg hdot] at hq
    have hpne : p ≠ [] := by
      intro he
      subst he
      exact hdot rfl
    rw [pathClean_eq_of_not_rooted p hpne h2] at hq hdot
    by_cases hsegs : cleanSegs false (splitSeg p) = []
    · rw [if_pos hsegs] at hdot
      exact absurd rfl hdot
    · rw [if_neg hsegs] at hq hdot
      set segs := cleanSegs false (splitSeg p) with hsegsdef
      have hmem : ∀ s ∈ segs, s ∈ splitSeg p ∧ s ≠ [] ∧ s ≠ ['.'] :=
        fun s hs => mem_cleanSegs false (splitSeg p) s hs
      have hnoslash : ∀ s ∈ segs, '/' ∉ s :=
        fun s hs => mem_splitSeg_no_slash p s (hmem s hs).1
      have hcddseg : ∀ s ∈ segs, containsDotDot s = false := by
        intro s hs
        cases hc : containsDotDot s
        · rfl
        · rw [mem_splitSeg_cdd p s (hmem s hs).1 hc] at h1
          cases h1
      have hnotdd : ∀ s ∈ segs, s ≠ ['.', '.'] := by
        intro s hs he
        have hT : containsDotDot s = true := by rw [he]; decide
        rw [hcddseg s hs] at hT
        cases hT
      have hvalid : ∀ s ∈ segs, s.all validChar = true := by
        intro s hs
        rw [List.all_eq_true]
        intro c hc
        exact List.all_eq_true.mp h3 c (mem_splitSeg_chars p s (hmem s hs).1 c hc)
      subst hq
      obtain ⟨s₁, rest, hsegsL⟩ := List.exists_cons_of_ne_nil hsegs
      have hs₁mem : s₁ ∈ segs := hsegsL ▸ List.mem_cons_self s₁ rest
      have hqne : joinSegs segs ≠ [] := by
        rw [hsegsL]
        exact joinSegs_ne_nil s₁ rest (hmem s₁ hs₁mem).2.1
      have hq1 : containsDotDot (joinSegs segs) = false := joinSegs_cdd segs hcddseg
      have hq2 : isAbs (joinSegs segs) = false := by
        rw [hsegsL]
        exact isAbs_joinSegs_false s₁ rest (hmem s₁ hs₁mem).2.1 (hnoslash s₁ hs₁mem)
      have hq3 : (joinSegs segs).all validChar = true := joinSegs_all_valid segs hvalid
      have hq4 : pathClean (joinSegs segs) = joinSegs segs := by
        rw [pathClean_eq_of_not_rooted (joinSegs segs) hqne hq2,
          splitSeg_joinSegs segs hsegs hnoslash,
          cleanSegs_normal false segs
            (fun e he => ⟨(hmem e he).2.1, (hmem e he).2.2, hnotdd e he⟩),
          if_neg hsegs]
      unfold CleanPath
      rw [if_neg (by simp [hq1]), if_neg (by simp [hq2]), if_neg (by simp [hq3])]
      simp only [hq4]
      rw [if_neg hdot]

/-- Witness for C8 at the test vector `dir1//file_1`, which cleans to
`dir1/file_1` and is a fixed point of `CleanPath`. -/
theorem cleanPath_idempotent_witness :
    CleanPath ("dir1/file_1".toList) = .ok ("dir1/file_1".toList) :=
  cleanPath_idempotent ("dir1//file_1".toList) ("dir1/file_1".toList) rfl

theorem escapesDir_eq (path baseDir : List Char) :
    escapesDir path baseDir =
      !((addTrailingSeparator (pathClean baseDir)).isPrefixOf
        (addTrailingSeparator (pathClean path))) := rfl

theorem pathClean_getLast_slash (x : List Char)
    (h : (pathClean x).getLast? = some '/') : pathClean x = ['/'] := by
  by_cases hx : x = []
  · subst hx
    simp [pathClean] at h
  · cases hab : isAbs x with
    | true =>
      rw [pathClean_eq_of_rooted x hab] at h ⊢
      cases hsegs : cleanSegs true (splitSeg x) with
      | nil => rfl
      | cons s₁ rest =>
        exfalso
        rw [hsegs] at h
        have hall : ∀ s ∈ s₁ :: rest, s ≠ [] ∧ '/' ∉ s := by
          intro s hs
          have hm := mem_cleanSegs true (splitSeg x) s (hsegs ▸ hs)
          exact ⟨hm.2.1, mem_splitSeg_no_slash x s hm.1⟩
        have hne : joinSegs (s₁ :: rest) ≠ [] :=
          joinSegs_ne_nil s₁ rest (hall s₁ (List.mem_cons_self s₁ rest)).1
        have hlast := joinSegs_getLast_ne_slash (s₁ :: rest) (by simp) hall
        cases hj : joinSegs (s₁ :: rest) with
        | nil => exact hne hj
        | cons a r =>
          rw [hj] at h hlast
          rw [List.getLast?_cons_cons] at h
          exact hlast h
    | false =>
      rw [pathClean_eq_of_not_rooted x hx hab] at h ⊢
      by_cases hsegs : cleanSegs false (splitSeg x) = []
      · rw [if_pos hsegs] at h
        simp at h
      · exfalso
        rw [if_neg hsegs] at h
        obtain ⟨s₁, rest, hL⟩ := List.exists_cons_of_ne_nil hsegs
        rw [hL] at h
        have hall : ∀ s ∈ s₁ :: rest, s ≠ [] ∧ '/' ∉ s := by
          intro s hs
          have hm := mem_cleanSegs false (splitSeg x) s (hL ▸ hs)
          exact ⟨hm.2.1, mem_splitSeg_no_slash x s hm.1⟩
        exact joinSegs_getLast_ne_slash (s₁ :: rest) (by simp) hall h

theorem addTrailingSeparator_of_no_slash_end (x : List Char) (hx : x ≠ [])
    (h : x.getLast? ≠ some '/') : addTrailingSeparator x = x ++ ['/'] := by
  unfold addTrailingSeparator
  cases hg : x.getLast? with
  | none => exact absurd (List.getLast?_eq_none_iff.mp hg) hx
  | some c =>
    have hc : ¬(c = '/') := by
      intro he
      exact h (he ▸ hg)
    show (if c = '/' then x else x ++ ['/']) = x ++ ['/']
    exact if_neg hc

theorem cleaned_getLast_ne_slash (b : List Char) (hcb : pathClean b = b)
    (hbne : b ≠ ['/']) : b.getLast? ≠ some '/' := by
  intro hg
  have := pathClean_getLast_slash b (hcb.symm ▸ hg)
  rw [hcb] at this
  exact hbne this

theorem append_one_prefix_iff (p b : List Char) (x : Char) :
    (b ++ [x] <+: p ++ [x]) ↔ (p = b ∨ b ++ [x] <+: p) := by
  constructor
  · intro h
    have hlen := h.length_le
    simp only [List.length_append, List.length_cons, List.length_nil] at hlen
    rcases lt_or_eq_of_le (by omega : b.length ≤ p.length) with hlt | heq
    · right
      have htake : b ++ [x] = (p ++ [x]).take (b ++ [x]).length :=
        List.prefix_iff_eq_take.mp h
      rw [List.take_append_of_le_length
        (by simp only [List.length_append, List.length_cons, List.length_nil]; omega)]
        at htake
      rw [htake]
      exact List.take_prefix _ _
    · left
      have heq2 : (b ++ [x]).length = (p ++ [x]).length := by
        simp only [List.length_append, List.length_cons, List.length_nil]
        omega
      exact (List.append_cancel_right (h.eq_of_length heq2)).symm
  · intro h
    rcases h with h | h
    · exact h ▸ List.prefix_refl _
    · exact h.trans (List.prefix_append p [x])

/-- Claim C2: `escapesDir(p, b)` on cleaned absolute paths returns `false`
exactly when `p` equals `b` or is nested under `b` (the comparison appends a
trailing separator to both sides, so a sibling such as `/a/bc` against base
`/a/b` escapes); consequently every path that `getFullPath` resolves
successfully does not escape the base directory, and any escaping resolution
is rejected.  (`filepath.Abs` depends on the process working directory for
relative arguments, so the characterization is stated for the absolute
arguments the backend feeds it.) -/
theorem escapesDir_confinement :
    (∀ p b : List Char, isAbs p = true → isAbs b = true →
      pathClean p = p → pathClean b = b → b ≠ ['/'] →
      (escapesDir p b = false ↔ (p = b ∨ b ++ ['/'] <+: p))) ∧
    (∀ (l : LocalDir) (fp full : List Char),
      getFullPath l fp = .ok full → escapesDir full l.BaseDir = false) := by
  constructor
  · intro p b hap hab hcp hcb hbne
    rw [escapesDir_eq, hcp, hcb]
    have hbnil : b ≠ [] := by
      intro he
      rw [he] at hab
      cases hab
    have hbtrail : addTrailingSeparator b = b ++ ['/'] :=
      addTrailingSeparator_of_no_slash_end b hbnil (cleaned_getLast_ne_slash b hcb hbne)
    have hblen : 2 ≤ b.length := by
      cases b with
      | nil => exact absurd rfl hbnil
      | cons c r =>
        cases r with
        | nil =>
          rw [isAbs_cons] at hab
          have : c = '/' := by simpa using hab
          exact absurd (by rw [this]) hbne
        | cons d r' => simp
    by_cases hpslash : p = ['/']
    · subst hpslash
      rw [show addTrailingSeparator ['/'] = ['/'] from rfl, hbtrail]
      constructor
      · intro h
        exfalso
        rw [Bool.not_eq_false', List.isPrefixOf_iff_prefix] at h
        have := h.length_le
        simp only [List.length_append, List.length_cons, List.length_nil] at this
        omega
      · intro h
        exfalso
        rcases h with h | h
        · exact hbne h.symm
        · have := h.length_le
          simp only [List.length_append, List.length_cons, List.length_nil] at this
          omega
    · have hpnil : p ≠ [] := by
        intro he
        rw [he] at hap
        cases hap
      have hptrail : addTrailingSeparator p = p ++ ['/'] :=
        addTrailingSeparator_of_no_slash_end p hpnil (cleaned_getLast_ne_slash p hcp hpslash)
      rw [hptrail, hbtrail, Bool.not_eq_false', List.isPrefixOf_iff_prefix]
      exact append_one_prefix_iff p b '/'
  · intro l fp full h
    unfold getFullPath at h
    cases hc : CleanPath fp with
    | error e => rw [hc] at h; cases h
    | ok cp =>
      rw [hc] at h
      simp only at h
      by_cases he : escapesDir (filepathAbs (filepathJoin l.BaseDir cp)) l.BaseDir = true
      · rw [if_pos he] at h; cases h
      · rw [if_neg he] at h
        rw [← Except.ok.inj h]
        exact Bool.eq_false_iff.mpr he

/-- Witness for C2: the sibling base pair from the specification, `/a/bc`
against base `/a/b`, is classified as escaping (the characterization's
right-hand side is false), while a genuinely nested resolution through
`getFullPath` does not escape. -/
theorem escapesDir_confinement_witness :
    (escapesDir ("/a/bc".toList) ("/a/b".toList) = false ↔
      ("/a/bc".toList = "/a/b".toList ∨ "/a/b".toList ++ ['/'] <+: "/a/bc".toList)) ∧
    escapesDir ("/b/d1".toList) ("/b".toList) = false := by
  constructor
  · exact escapesDir_confinement.1 ("/a/bc".toList) ("/a/b".toList)
      (by decide) (by decide) (by decide) (by decide) (by decide)
  · exact escapesDir_confinement.2 ⟨"/b".toList⟩ ("d1".toList) ("/b/d1".toList) rfl

/-!  Toolbox for the pruning claim: the base directory cannot be `/`-escaped
from, directory listings of a parent always contain an existing child, and
well-formedness of the filesystem survives the removals the code performs. -/

theorem escapesDir_slash (b : List Char) (hab : isAbs b = true)
    (hcb : pathClean b = b) (hbne : b ≠ ['/']) : escapesDir ['/'] b = true := by
  have hbnil : b ≠ [] := by
    intro he
    rw [he] at hab
    cases hab
  rw [escapesDir_eq, hcb, show pathClean ['/'] = ['/'] from rfl,
    show addTrailingSeparator ['/'] = ['/'] from rfl,
    addTrailingSeparator_of_no_slash_end b hbnil (cleaned_getLast_ne_slash b hcb hbne)]
  have hlenb : 1 ≤ b.length := by
    cases b with
    | nil => exact absurd rfl hbnil
    | cons c r => simp
  have hnp : ((b ++ ['/']).isPrefixOf (['/'] : List Char)) = false := by
    rw [Bool.eq_false_iff]
    intro ht
    have := (List.isPrefixOf_iff_prefix.mp ht).length_le
    simp only [List.length_append, List.length_cons, List.length_nil] at this
    omega
  rw [hnp]
  rfl

theorem dirOf_slash : dirOf ['/'] = ['/'] := rfl

theorem mem_entriesOf (fs : FS) (d e : List Char)
    (he : e ∈ fs.files.map Prod.fst ++ fs.dirs) (hd : dirOf e = d) :
    e ∈ fs.entriesOf d := by
  unfold FS.entriesOf
  rw [List.mem_filter]
  exact ⟨he, by simp [hd]⟩

theorem entriesOf_ne_nil_of_child (fs : FS) (q : List Char) (hq : q ∈ fs.dirs) :
    fs.entriesOf (dirOf q) ≠ [] := by
  intro h
  have hmem : q ∈ fs.entriesOf (dirOf q) :=
    mem_entriesOf fs (dirOf q) q (List.mem_append_right _ hq) rfl
  rw [h] at hmem
  cases hmem

theorem insideChain_nonempty (l : LocalDir) (hb1 : isAbs l.BaseDir = true)
    (hb2 : pathClean l.BaseDir = l.BaseDir) (fs : FS) (hwf : fs.wf) :
    ∀ (n : Nat) (q : List Char), q ∈ fs.dirs →
      ∀ d ∈ insideChain l n q, fs.entriesOf d ≠ [] := by
  intro n
  induction n with
  | zero =>
    intro q hq d hd
    cases hd
  | succ n ih =>
    intro q hq d hd
    unfold insideChain at hd
    by_cases hstop : (escapesDir (dirOf q) l.BaseDir || dirOf q = l.BaseDir) = true
    · rw [if_pos hstop] at hd
      cases hd
    · rw [if_neg hstop] at hd
      rcases List.mem_cons.mp hd with hd | hd
      · subst hd
        exact entriesOf_ne_nil_of_child fs q hq
      · have hq' : dirOf q ∈ fs.dirs := by
          rcases hwf.2.1 q hq with hroot | hpar
          · exfalso
            apply hstop
            rw [hroot, dirOf_slash]
            by_cases hb : l.BaseDir = ['/']
            · simp [hb]
            · rw [escapesDir_slash l.BaseDir hb1 hb2 hb]
              simp
          · exact hpar.1
        exact ih (dirOf q) hq' d hd

theorem lookup_filter_ne (files : List (List Char × List Nat)) (x p : List Char)
    (h : files.lookup x = none) :
    (files.filter (fun kv => !(kv.1 == p))).lookup x = none := by
  induction files with
  | nil => rfl
  | cons kv rest ih =>
    have hx : (x == kv.1) = false ∧ rest.lookup x = none := by
      unfold List.lookup at h
      cases hxe : x == kv.1 with
      | true => rw [hxe] at h; cases h
      | false => rw [hxe] at h; exact ⟨rfl, h⟩
    by_cases hk : (kv.1 == p) = true
    · rw [show List.filter (fun kv => !(kv.1 == p)) (kv :: rest) =
        List.filter (fun kv => !(kv.1 == p)) rest from by simp [List.filter_cons, hk]]
      exact ih hx.2
    · rw [show List.filter (fun kv => !(kv.1 == p)) (kv :: rest) =
        kv :: List.filter (fun kv => !(kv.1 == p)) rest from by
          simp [List.filter_cons, Bool.eq_false_iff.mpr hk]]
      unfold List.lookup
      rw [hx.1]
      exact ih hx.2

theorem lookup_filter_self (files : List (List Char × List Nat)) (p : List Char) :
    (files.filter (fun kv => !(kv.1 == p))).lookup p = none := by
  induction files with
  | nil => rfl
  | cons kv rest ih =>
    by_cases hk : (kv.1 == p) = true
    · rw [show List.filter (fun kv => !(kv.1 == p)) (kv :: rest) =
        List.filter (fun kv => !(kv.1 == p)) rest from by simp [List.filter_cons, hk]]
      exact ih
    · rw [show List.filter (fun kv => !(kv.1 == p)) (kv :: rest) =
        kv :: List.filter (fun kv => !(kv.1 == p)) rest from by
          simp [List.filter_cons, Bool.eq_false_iff.mpr hk]]
      unfold List.lookup
      rw [show (p == kv.1) = false from by
        rw [beq_eq_false_iff_ne]
        intro he
        exact hk (by rw [he]; exact beq_self_eq_true kv.1)]
      exact ih

theorem wf_removeFile (fs : FS) (p : List Char) (hwf : fs.wf) :
    FS.wf { fs with files := fs.files.filter (fun kv => !(kv.1 == p)) } := by
  refine ⟨?_, hwf.2.1, ?_⟩
  · intro f hf
    have hf' : f ∈ fs.files.map Prod.fst := by
      simp only [List.mem_map] at hf ⊢
      obtain ⟨kv, hkv, hrfl⟩ := hf
      exact ⟨kv, List.mem_of_mem_filter hkv, hrfl⟩
    exact hwf.1 f hf'
  · intro x hx
    exact lookup_filter_ne fs.files x p (hwf.2.2 x hx)

theorem wf_removeEmptyDir (fs : FS) (p : List Char) (hwf : fs.wf)
    (hemp : fs.entriesOf p = []) :
    FS.wf { fs with dirs := fs.dirs.filter (fun d => !(d == p)) } := by
  have hnochild : ∀ e, e ∈ fs.files.map Prod.fst ++ fs.dirs → dirOf e ≠ p := by
    intro e he hd
    have hmem : e ∈ fs.entriesOf p := mem_entriesOf fs p e he hd
    rw [hemp] at hmem
    cases hmem
  refine ⟨?_, ?_, ?_⟩
  · intro f hf
    rw [List.mem_filter]
    refine ⟨hwf.1 f hf, ?_⟩
    show (!(dirOf f == p)) = true
    rw [Bool.not_eq_true', beq_eq_false_iff_ne]
    exact hnochild f (List.mem_append_left _ hf)
  · intro d hd
    have hd' : d ∈ fs.dirs := List.mem_of_mem_filter hd
    rcases hwf.2.1 d hd' with h | h
    · exact Or.inl h
    · refine Or.inr ⟨?_, h.2⟩
      rw [List.mem_filter]
      refine ⟨h.1, ?_⟩
      show (!(dirOf d == p)) = true
      rw [Bool.not_eq_true', beq_eq_false_iff_ne]
      exact hnochild d (List.mem_append_right _ hd')
  · intro x hx
    exact hwf.2.2 x (List.mem_of_mem_filter hx)

theorem removeQuiet_empty_dir (fs : FS) (pd : List Char) (hwf : fs.wf)
    (hd : pd ∈ fs.dirs) (hemp : fs.entriesOf pd = []) :
    fs.removeQuiet pd = { fs with dirs := fs.dirs.filter (fun d => !(d == pd)) } := by
  have hlook : fs.files.lookup pd = none := hwf.2.2 pd hd
  simp [FS.removeQuiet, FS.osRemove, hlook, hd, hemp]

theorem pruneLoop_spec (l : LocalDir) (hb1 : isAbs l.BaseDir = true)
    (hb2 : pathClean l.BaseDir = l.BaseDir) :
    ∀ (n : Nat) (fs fs' : FS) (p : List Char), fs.wf →
      pruneLoop l fs p n = (fs', none) →
      fs'.wf ∧ (∀ x ∈ fs'.dirs, x ∈ fs.dirs) ∧ fs'.files = fs.files ∧
      (l.BaseDir ∈ fs.dirs → l.BaseDir ∈ fs'.dirs) ∧
      (∀ d ∈ insideChain l n p, d ∈ fs'.dirs → fs'.entriesOf d ≠ []) := by
  intro n
  induction n with
  | zero =>
    intro fs fs' p hwf h
    exact absurd (congrArg Prod.snd h) (by simp [pruneLoop])
  | succ n ih =>
    intro fs fs' p hwf h
    unfold pruneLoop at h
    unfold insideChain
    by_cases hstop : (escapesDir (dirOf p) l.BaseDir || dirOf p = l.BaseDir) = true
    · rw [if_pos hstop] at h
      have hfs : fs = fs' := congrArg Prod.fst h
      subst hfs
      rw [if_pos hstop]
      exact ⟨hwf, fun x hx => hx, rfl, fun hx => hx, fun d hd => by cases hd⟩
    · rw [if_neg hstop] at h
      rw [if_neg hstop]
      cases hrd : fs.readDir (dirOf p) with
      | none =>
        rw [hrd] at h
        exact absurd (congrArg Prod.snd h) (by simp)
      | some entries =>
        rw [hrd] at h
        have hpd : dirOf p ∈ fs.dirs ∧ entries = fs.entriesOf (dirOf p) := by
          unfold FS.readDir at hrd
          by_cases hdm : dirOf p ∈ fs.dirs
          · rw [if_pos hdm] at hrd
            exact ⟨hdm, (Option.some.inj hrd).symm⟩
          · rw [if_neg hdm] at hrd
            cases hrd
        have h' : (if 0 < entries.length then (fs, none)
            else pruneLoop l (fs.removeQuiet (dirOf p)) (dirOf p) n) = (fs', none) := h
        by_cases hlen : 0 < entries.length
        · rw [if_pos hlen] at h'
          have hfs : fs = fs' := congrArg Prod.fst h'
          subst hfs
          refine ⟨hwf, fun x hx => hx, rfl, fun hx => hx, ?_⟩
          intro d hd hdin
          rcases List.mem_cons.mp hd with hd | hd
          · subst hd
            intro hemp
            rw [hpd.2, hemp] at hlen
            exact absurd hlen (by simp)
          · exact insideChain_nonempty l hb1 hb2 fs hwf n (dirOf p) hpd.1 d hd
        · rw [if_neg hlen] at h'
          have hentnil : entries = [] := by
            cases entries with
            | nil => rfl
            | cons a r => exact absurd (by simp) hlen
          have hemp : fs.entriesOf (dirOf p) = [] := by
            rw [← hpd.2]
            exact hentnil
          rw [removeQuiet_empty_dir fs (dirOf p) hwf hpd.1 hemp] at h'
          have hwf₂ : FS.wf { fs with dirs := fs.dirs.filter (fun d => !(d == dirOf p)) } :=
            wf_removeEmptyDir fs (dirOf p) hwf hemp
          obtain ⟨ihwf, ihsub, ihfiles, ihbase, ihchain⟩ :=
            ih { fs with dirs := fs.dirs.filter (fun d => !(d == dirOf p)) } fs'
              (dirOf p) hwf₂ h'
          have hbne : ¬(dirOf p = l.BaseDir) := by
            intro he
            exact hstop (by simp [he])
          refine ⟨ihwf, ?_, ?_, ?_, ?_⟩
          · intro x hx
            exact List.mem_of_mem_filter (ihsub x hx)
          · exact ihfiles
          · intro hbase
            apply ihbase
            rw [List.mem_filter]
            refine ⟨hbase, ?_⟩
            show (!(l.BaseDir == dirOf p)) = true
            rw [Bool.not_eq_true', beq_eq_false_iff_ne]
            intro he
            exact hbne he.symm
          · intro d hd hdin
            rcases List.mem_cons.mp hd with hd | hd
            · exfalso
              subst hd
              have hmem := ihsub (dirOf p) hdin
              rw [List.mem_filter] at hmem
              have := hmem.2
              simp at this
            · exact ihchain d hd hdin

/-- Claim C3: when `LocalDir.Delete` succeeds on a path resolving to an
existing file, the upward walk removes each empty ancestor and stops at the
first non-empty one or at the base directory, so that in the resulting state
no ancestor of the file strictly inside the base directory is left both
present and empty, the base directory itself is never removed, and the file
is gone.  (`insideChain` enumerates the strict ancestors inside the base
exactly as the walk visits them; `FS.wf` is the well-formedness a real
directory tree guarantees.) -/
theorem delete_prunes_empty_ancestors (l : LocalDir) (fs fs' : FS)
    (p full : List Char) (hwf : fs.wf) (hb1 : isAbs l.BaseDir = true)
    (hb2 : pathClean l.BaseDir = l.BaseDir)
    (hfull : getFullPath l p = .ok full)
    (hfile : (fs.files.lookup full).isSome = true)
    (hdel : LocalDir.Delete l fs p = (fs', none)) :
    (l.BaseDir ∈ fs.dirs → l.BaseDir ∈ fs'.dirs) ∧
    (∀ d ∈ insideChain l 1001 full, d ∈ fs'.dirs → fs'.entriesOf d ≠ []) ∧
    fs'.files.lookup full = none := by
  have hre : fs.osRemove full =
      .ok { fs with files := fs.files.filter (fun kv => !(kv.1 == full)) } := by
    unfold FS.osRemove
    rw [if_pos hfile]
  have hsteps : LocalDir.Delete l fs p = pruneLoop l
      { fs with files := fs.files.filter (fun kv => !(kv.1 == full)) } full 1001 := by
    unfold LocalDir.Delete
    rw [hfull]
    show (match fs.osRemove full with
      | Except.error RmErr.notExist => (fs, some (StorError.pathDoesntExist p))
      | Except.error RmErr.otherErr => (fs, some StorError.substrate)
      | Except.ok fs₁ => pruneLoop l fs₁ full 1001) = _
    rw [hre]
  have hdel' : pruneLoop l
      { fs with files := fs.files.filter (fun kv => !(kv.1 == full)) } full 1001 =
      (fs', none) := hsteps.symm.trans hdel
  have hwf₁ : FS.wf { fs with files := fs.files.filter (fun kv => !(kv.1 == full)) } :=
    wf_removeFile fs full hwf
  obtain ⟨ihwf, ihsub, ihfiles, ihbase, ihchain⟩ :=
    pruneLoop_spec l hb1 hb2 1001
      { fs with files := fs.files.filter (fun kv => !(kv.1 == full)) } fs' full hwf₁ hdel'
  refine ⟨ihbase, ihchain, ?_⟩
  rw [ihfiles]
  exact lookup_filter_self fs.files full

/-- Witness for C3: deleting `d1/d2/f`, the only file of the chain
`/b/d1/d2`, from base `/b` leaves exactly the base and the root; the base
directory survives and the file is gone. -/
theorem delete_prunes_empty_ancestors_witness :
    ("/b".toList ∈ (⟨[], ["/".toList, "/b".toList]⟩ : FS).dirs) ∧
    (⟨[], ["/".toList, "/b".toList]⟩ : FS).files.lookup ("/b/d1/d2/f".toList) = none := by
  have h := delete_prunes_empty_ancestors ⟨"/b".toList⟩
    ⟨[("/b/d1/d2/f".toList, [7])],
      ["/".toList, "/b".toList, "/b/d1".toList, "/b/d1/d2".toList]⟩
    ⟨[], ["/".toList, "/b".toList]⟩
    ("d1/d2/f".toList) ("/b/d1/d2/f".toList)
    (by decide) (by decide) (by decide) rfl (by decide) rfl
  exact ⟨h.1 (by decide), h.2.2⟩

/-!  Further path algebra: appending a path element, or a trailing
separator, interacts with `path.Clean` and `filepath.Dir` as expected.
These support the analysis of `LocalDir.Delete` on deep directory chains. -/

theorem splitSeg_append_seg (y s : List Char) (hs : '/' ∉ s) :
    splitSeg (y ++ '/' :: s) = splitSeg y ++ [s] := by
  induction y with
  | nil =>
    show splitSeg ('/' :: s) = [[]] ++ [s]
    rw [splitSeg_cons, if_pos rfl, splitSeg_no_slash_eq s hs]
    rfl
  | cons c rest ih =>
    by_cases hc : c = '/'
    · subst hc
      show splitSeg ('/' :: (rest ++ '/' :: s)) = splitSeg ('/' :: rest) ++ [s]
      rw [splitSeg_cons, if_pos rfl, ih, splitSeg_cons, if_pos rfl]
      rfl
    · show splitSeg (c :: (rest ++ '/' :: s)) = splitSeg (c :: rest) ++ [s]
      rw [splitSeg_cons, if_neg hc, ih, splitSeg_cons, if_neg hc]
      cases hsp : splitSeg rest with
      | nil => exact absurd hsp (splitSeg_ne_nil rest)
      | cons s₀ ss => rfl

theorem cleanSegs_append_nil_elem (r : Bool) (L : List (List Char)) :
    cleanSegs r (L ++ [[]]) = cleanSegs r L := by
  unfold cleanSegs
  rw [List.foldl_append]
  rfl

theorem cleanSegs_cons_nil_elem (r : Bool) (L : List (List Char)) :
    cleanSegs r ([] :: L) = cleanSegs r L := by
  unfold cleanSegs
  rw [List.foldl_cons]
  rfl

theorem cleanSegs_append_normal (r : Bool) (L : List (List Char)) (s : List Char)
    (h1 : s ≠ []) (h2 : s ≠ ['.']) (h3 : s ≠ ['.', '.']) :
    cleanSegs r (L ++ [s]) = cleanSegs r L ++ [s] := by
  unfold cleanSegs
  rw [List.foldl_append]
  show (elemStep r (List.foldl (elemStep r) [] L) s).reverse = _
  unfold elemStep
  rw [if_neg h1, if_neg h2, if_neg h3, List.reverse_cons]

theorem joinSegs_append_single (L : List (List Char)) (hL : L ≠ []) (s : List Char) :
    joinSegs (L ++ [s]) = joinSegs L ++ '/' :: s := by
  match L with
  | [] => exact absurd rfl hL
  | [x] => rfl
  | x :: y :: r =>
    show joinSegs (x :: y :: (r ++ [s])) = (x ++ '/' :: joinSegs (y :: r)) ++ '/' :: s
    rw [joinSegs_cons₂ x y (r ++ [s]),
      show y :: (r ++ [s]) = (y :: r) ++ [s] from rfl,
      joinSegs_append_single (y :: r) (by simp) s]
    simp [List.append_assoc]

theorem isAbs_append_left (x y : List Char) (hx : x ≠ []) :
    isAbs (x ++ y) = isAbs x := by
  cases x with
  | nil => exact absurd rfl hx
  | cons c rest => rfl

theorem pathClean_append_slash (y : List Char) (hy : y ≠ []) :
    pathClean (y ++ ['/']) = pathClean y := by
  have hsp : splitSeg (y ++ ['/']) = splitSeg y ++ [[]] :=
    splitSeg_append_seg y [] (by simp)
  cases hab : isAbs y with
  | true =>
    have hab2 : isAbs (y ++ ['/']) = true := by
      rw [isAbs_append_left y ['/'] hy, hab]
    rw [pathClean_eq_of_rooted _ hab2, pathClean_eq_of_rooted _ hab, hsp,
      cleanSegs_append_nil_elem]
  | false =>
    have hab2 : isAbs (y ++ ['/']) = false := by
      rw [isAbs_append_left y ['/'] hy, hab]
    rw [pathClean_eq_of_not_rooted _ (by simp) hab2,
      pathClean_eq_of_not_rooted _ hy hab, hsp, cleanSegs_append_nil_elem]

theorem dropWhile_append_of_all {α : Type} (p : α → Bool) (l₁ l₂ : List α)
    (h : ∀ a ∈ l₁, p a = true) :
    (l₁ ++ l₂).dropWhile p = l₂.dropWhile p := by
  induction l₁ with
  | nil => rfl
  | cons a rest ih =>
    show ((a :: rest) ++ l₂).dropWhile p = l₂.dropWhile p
    rw [List.cons_append, List.dropWhile_cons, if_pos (h a (List.mem_cons_self a rest))]
    exact ih (fun x hx => h x (List.mem_cons_of_mem a hx))

theorem dirOf_append_seg (y s : List Char) (hy : y ≠ []) (hs : '/' ∉ s) :
    dirOf (y ++ '/' :: s) = pathClean y := by
  unfold dirOf
  have h1 : (y ++ '/' :: s).reverse = s.reverse ++ '/' :: y.reverse := by
    rw [List.reverse_append, List.reverse_cons]
    simp [List.append_assoc]
  rw [h1, dropWhile_append_of_all _ s.reverse ('/' :: y.reverse)
    (by
      intro a ha
      rw [List.mem_reverse] at ha
      rw [Bool.not_eq_true', beq_eq_false_iff_ne]
      intro he
      exact hs (he ▸ ha)),
    List.dropWhile_cons, if_neg (by simp)]
  rw [List.reverse_cons, List.reverse_reverse]
  exact pathClean_append_slash y hy

/-!  Facts about the deep chain. -/

theorem deepPath_length (k : Nat) : (deepPath k).length = 2 * k + 2 := by
  induction k with
  | zero => rfl
  | succ k ih =>
    show (deepPath k ++ '/' :: 'a' :: []).length = 2 * (k + 1) + 2
    rw [List.length_append, ih]
    simp
    omega

theorem deepPath_ne_nil (k : Nat) : deepPath k ≠ [] := by
  intro h
  have := deepPath_length k
  rw [h] at this
  simp at this

theorem deepPath_ne_slash (k : Nat) : deepPath k ≠ ['/'] := by
  intro h
  have := deepPath_length k
  rw [h] at this
  simp only [List.length_cons, List.length_nil] at this
  omega

theorem deepPath_inj_ne (j j' : Nat) (h : j ≠ j') : deepPath j ≠ deepPath j' := by
  intro he
  have h1 := deepPath_length j
  rw [he, deepPath_length j'] at h1
  omega

theorem isAbs_deepPath (k : Nat) : isAbs (deepPath k) = true := by
  induction k with
  | zero => rfl
  | succ k ih =>
    show isAbs (deepPath k ++ '/' :: 'a' :: []) = true
    rw [isAbs_append_left _ _ (deepPath_ne_nil k)]
    exact ih

theorem splitSeg_deepPath (k : Nat) :
    splitSeg (deepPath k) = [] :: ['b'] :: List.replicate k ['a'] := by
  induction k with
  | zero => rfl
  | succ k ih =>
    show splitSeg (deepPath k ++ '/' :: ['a']) = _
    rw [splitSeg_append_seg (deepPath k) ['a'] (by decide), ih,
      List.replicate_succ' k]
    rfl

theorem cleanSegs_deepPath (k : Nat) :
    cleanSegs true (splitSeg (deepPath k)) = ['b'] :: List.replicate k ['a'] := by
  rw [splitSeg_deepPath, cleanSegs_cons_nil_elem]
  apply cleanSegs_normal
  intro e he
  rcases List.mem_cons.mp he with h | h
  · subst h
    refine ⟨by simp, by decide, by decide⟩
  · rw [List.eq_of_mem_replicate h]
    refine ⟨by simp, by decide, by decide⟩

theorem joinSegs_b_replicate (k : Nat) :
    '/' :: joinSegs (['b'] :: List.replicate k ['a']) = deepPath k := by
  induction k with
  | zero => rfl
  | succ k ih =>
    rw [List.replicate_succ' k,
      show (['b'] : List Char) :: (List.replicate k ['a'] ++ [['a']]) =
        (['b'] :: List.replicate k ['a']) ++ [['a']] from rfl,
      joinSegs_append_single (['b'] :: List.replicate k ['a']) (by simp) ['a']]
    show '/' :: (joinSegs (['b'] :: List.replicate k ['a']) ++ '/' :: ['a']) = _
    rw [show ('/' : Char) :: (joinSegs (['b'] :: List.replicate k ['a']) ++ '/' :: ['a']) =
      ('/' :: joinSegs (['b'] :: List.replicate k ['a'])) ++ '/' :: ['a'] from rfl, ih]
    rfl

theorem pathClean_deepPath (k : Nat) : pathClean (deepPath k) = deepPath k := by
  rw [pathClean_eq_of_rooted _ (isAbs_deepPath k), cleanSegs_deepPath]
  exact joinSegs_b_replicate k

theorem dirOf_deepPath (k : Nat) : dirOf (deepPath (k + 1)) = deepPath k := by
  show dirOf (deepPath k ++ '/' :: ['a']) = deepPath k
  rw [dirOf_append_seg (deepPath k) ['a'] (deepPath_ne_nil k) (by decide)]
  exact pathClean_deepPath k

theorem dirOf_deepPath_zero : dirOf (deepPath 0) = ['/'] := rfl

theorem slashB_prefix (k : Nat) : ['/', 'b', '/'] <+: deepPath k ++ ['/'] := by
  induction k with
  | zero => exact List.prefix_refl _
  | succ k ih =>
    show ['/', 'b', '/'] <+: (deepPath k ++ '/' :: ['a']) ++ ['/']
    have hre : (deepPath k ++ '/' :: ['a']) ++ ['/'] =
        (deepPath k ++ ['/']) ++ ['a', '/'] := by
      simp [List.append_assoc]
    rw [hre]
    exact ih.trans (List.prefix_append _ _)

theorem escapesDir_deepPath (k : Nat) :
    escapesDir (deepPath k) (deepPath 0) = false := by
  rw [escapesDir_eq, pathClean_deepPath, pathClean_deepPath,
    addTrailingSeparator_of_no_slash_end (deepPath k) (deepPath_ne_nil k)
      (cleaned_getLast_ne_slash _ (pathClean_deepPath k) (deepPath_ne_slash k)),
    show addTrailingSeparator (deepPath 0) = ['/', 'b', '/'] from rfl]
  rw [show ((!(['/', 'b', '/'] : List Char).isPrefixOf (deepPath k ++ ['/'])) = false) =
    ((['/', 'b', '/'] : List Char).isPrefixOf (deepPath k ++ ['/']) = true) from
      Bool.not_eq_false' _]
  rw [List.isPrefixOf_iff_prefix]
  exact slashB_prefix k

theorem mem_chainDirs_elim (m : Nat) (x : List Char) (h : x ∈ chainDirs m) :
    x = ['/'] ∨ ∃ j, j ≤ m ∧ x = deepPath j := by
  induction m with
  | zero =>
    rcases List.mem_cons.mp h with h | h
    · exact Or.inl h
    · rcases List.mem_cons.mp h with h | h
      · exact Or.inr ⟨0, Nat.le_refl 0, h⟩
      · cases h
  | succ m ih =>
    rcases List.mem_append.mp h with h | h
    · rcases ih h with h | ⟨j, hj, hx⟩
      · exact Or.inl h
      · exact Or.inr ⟨j, Nat.le_succ_of_le hj, hx⟩
    · rcases List.mem_cons.mp h with h | h
      · exact Or.inr ⟨m + 1, Nat.le_refl _, h⟩
      · cases h

theorem deepPath_mem_chainDirs (j m : Nat) (h : j ≤ m) :
    deepPath j ∈ chainDirs m := by
  induction m with
  | zero =>
    have hj : j = 0 := Nat.le_zero.mp h
    subst hj
    exact List.mem_cons_of_mem _ (List.mem_cons_self _ _)
  | succ m ih =>
    show deepPath j ∈ chainDirs m ++ [deepPath (m + 1)]
    rcases Nat.lt_or_ge j (m + 1) with hlt | hge
    · exact List.mem_append_left _ (ih (Nat.lt_succ_iff.mp hlt))
    · have hj : j = m + 1 := Nat.le_antisymm h hge
      subst hj
      exact List.mem_append_right _ (List.mem_cons_self _ _)

theorem entriesOf_chain (m : Nat) :
    FS.entriesOf ⟨[], chainDirs (m + 1)⟩ (deepPath (m + 1)) = [] := by
  unfold FS.entriesOf
  rw [List.filter_eq_nil_iff]
  intro e he
  simp only [List.map_nil, List.nil_append] at he
  rw [Bool.not_eq_true, beq_eq_false_iff_ne]
  rcases mem_chainDirs_elim (m + 1) e he with h | ⟨j, hj, hx⟩
  · subst h
    rw [show dirOf ['/'] = ['/'] from rfl]
    exact fun hc => deepPath_ne_slash (m + 1) hc.symm
  · subst hx
    cases j with
    | zero =>
      rw [dirOf_deepPath_zero]
      exact fun hc => deepPath_ne_slash (m + 1) hc.symm
    | succ j' =>
      rw [dirOf_deepPath j']
      exact deepPath_inj_ne j' (m + 1) (by omega)

theorem slash_mem_chainDirs (m : Nat) : (['/'] : List Char) ∈ chainDirs m := by
  induction m with
  | zero => exact List.mem_cons_self _ _
  | succ m ih => exact List.mem_append_left _ ih

theorem wf_chainFS (m : Nat) : FS.wf ⟨[], chainDirs m⟩ := by
  refine ⟨?_, ?_, ?_⟩
  · intro f hf
    simp at hf
  · intro d hd
    rcases mem_chainDirs_elim m d hd with h | ⟨j, hj, hx⟩
    · exact Or.inl h
    · subst hx
      cases j with
      | zero =>
        refine Or.inr ⟨?_, ?_⟩
        · rw [dirOf_deepPath_zero]
          exact slash_mem_chainDirs m
        · rw [dirOf_deepPath_zero]
          exact fun hc => deepPath_ne_slash 0 hc.symm
      | succ j' =>
        refine Or.inr ⟨?_, ?_⟩
        · rw [dirOf_deepPath j']
          exact deepPath_mem_chainDirs j' m (by omega)
        · rw [dirOf_deepPath j']
          exact deepPath_inj_ne j' (j' + 1) (by omega)
  · intro x hx
    rfl

theorem pruneLoop_succ (l : LocalDir) (fs : FS) (p : List Char) (fuel : Nat) :
    pruneLoop l fs p (fuel + 1) =
      if escapesDir (dirOf p) l.BaseDir || dirOf p = l.BaseDir then (fs, none)
      else
        match fs.readDir (dirOf p) with
        | none => (fs, some .substrate)
        | some entries =>
          if 0 < entries.length then (fs, none)
          else pruneLoop l (fs.removeQuiet (dirOf p)) (dirOf p) fuel := by
  rfl

theorem pruneLoop_step_remove (l : LocalDir) (fs : FS) (p : List Char) (f : Nat)
    (h1 : ¬((escapesDir (dirOf p) l.BaseDir || dirOf p = l.BaseDir) = true))
    (h2 : fs.readDir (dirOf p) = some []) :
    pruneLoop l fs p (f + 1) = pruneLoop l (fs.removeQuiet (dirOf p)) (dirOf p) f := by
  rw [pruneLoop_succ, if_neg h1, h2]
  show (if 0 < ([] : List (List Char)).length then (fs, none)
    else pruneLoop l (fs.removeQuiet (dirOf p)) (dirOf p) f) = _
  rw [if_neg (by simp)]

theorem removeQuiet_chain (m : Nat) :
    FS.removeQuiet ⟨[], chainDirs (m + 1)⟩ (deepPath (m + 1)) = ⟨[], chainDirs m⟩ := by
  rw [removeQuiet_empty_dir ⟨[], chainDirs (m + 1)⟩ (deepPath (m + 1)) (wf_chainFS (m + 1))
    (deepPath_mem_chainDirs (m + 1) (m + 1) (Nat.le_refl _)) (entriesOf_chain m)]
  show (⟨[], (chainDirs (m + 1)).filter (fun d => !(d == deepPath (m + 1)))⟩ : FS) = _
  have hfil : (chainDirs (m + 1)).filter (fun d => !(d == deepPath (m + 1))) =
      chainDirs m := by
    show ((chainDirs m) ++ [deepPath (m + 1)]).filter
      (fun d => !(d == deepPath (m + 1))) = chainDirs m
    rw [List.filter_append]
    have h1 : (chainDirs m).filter (fun d => !(d == deepPath (m + 1))) = chainDirs m := by
      rw [List.filter_eq_self]
      intro a ha
      rw [Bool.not_eq_true', beq_eq_false_iff_ne]
      rcases mem_chainDirs_elim m a ha with h | ⟨j, hj, hx⟩
      · subst h
        exact fun hc => deepPath_ne_slash (m + 1) hc.symm
      · subst hx
        exact deepPath_inj_ne j (m + 1) (by omega)
    have h2 : ([deepPath (m + 1)] : List (List Char)).filter
        (fun d => !(d == deepPath (m + 1))) = [] := by
      simp
    rw [h1, h2, List.append_nil]
  rw [hfil]

theorem prune_chain_err : ∀ (f m : Nat), f ≤ m →
    pruneLoop ⟨deepPath 0⟩ ⟨[], chainDirs m⟩ (deepPath (m + 1)) f =
      (⟨[], chainDirs (m - f)⟩, some .substrate) := by
  intro f
  induction f with
  | zero =>
    intro m _
    rfl
  | succ f ih =>
    intro m hfm
    cases m with
    | zero => omega
    | succ m' =>
      have hguard : ¬((escapesDir (dirOf (deepPath (m' + 1 + 1))) (deepPath 0) ||
          dirOf (deepPath (m' + 1 + 1)) = deepPath 0) = true) := by
        rw [dirOf_deepPath (m' + 1), escapesDir_deepPath (m' + 1)]
        simp
        exact deepPath_inj_ne (m' + 1) 0 (by omega)
      have hread : FS.readDir ⟨[], chainDirs (m' + 1)⟩ (dirOf (deepPath (m' + 1 + 1))) =
          some [] := by
        rw [dirOf_deepPath (m' + 1)]
        unfold FS.readDir
        rw [if_pos (deepPath_mem_chainDirs (m' + 1) (m' + 1) (Nat.le_refl _)),
          entriesOf_chain m']
      rw [pruneLoop_step_remove ⟨deepPath 0⟩ ⟨[], chainDirs (m' + 1)⟩
        (deepPath (m' + 1 + 1)) f hguard hread]
      rw [dirOf_deepPath (m' + 1), removeQuiet_chain m']
      rw [ih m' (by omega)]
      have : m' + 1 - (f + 1) = m' - f := by omega
      rw [this]

/-!  Facts about the logical deep path `a/a/.../a`. -/

theorem logicalDeep_length (k : Nat) : (logicalDeep k).length = 2 * k + 1 := by
  induction k with
  | zero => rfl
  | succ k ih =>
    show (logicalDeep k ++ '/' :: 'a' :: []).length = 2 * (k + 1) + 1
    rw [List.length_append, ih]
    simp
    omega

theorem logicalDeep_ne_nil (k : Nat) : logicalDeep k ≠ [] := by
  intro h
  have := logicalDeep_length k
  rw [h] at this
  simp at this

theorem containsDotDot_logicalDeep (k : Nat) :
    containsDotDot (logicalDeep k) = false := by
  induction k with
  | zero => rfl
  | succ k ih =>
    show containsDotDot (logicalDeep k ++ '/' :: ['a']) = false
    exact containsDotDot_append_sep (logicalDeep k) ['a'] ih rfl

theorem isAbs_logicalDeep (k : Nat) : isAbs (logicalDeep k) = false := by
  induction k with
  | zero => rfl
  | succ k ih =>
    show isAbs (logicalDeep k ++ '/' :: 'a' :: []) = false
    rw [isAbs_append_left _ _ (logicalDeep_ne_nil k)]
    exact ih

theorem all_valid_logicalDeep (k : Nat) :
    (logicalDeep k).all validChar = true := by
  induction k with
  | zero => decide
  | succ k ih =>
    show (logicalDeep k ++ '/' :: 'a' :: []).all validChar = true
    rw [List.all_append, ih]
    decide

theorem splitSeg_logicalDeep (k : Nat) :
    splitSeg (logicalDeep k) = List.replicate (k + 1) ['a'] := by
  induction k with
  | zero => rfl
  | succ k ih =>
    show splitSeg (logicalDeep k ++ '/' :: ['a']) = _
    rw [splitSeg_append_seg (logicalDeep k) ['a'] (by decide), ih,
      ← List.replicate_succ' (k + 1)]

theorem joinSegs_replicate_a (k : Nat) :
    joinSegs (List.replicate (k + 1) ['a']) = logicalDeep k := by
  induction k with
  | zero => rfl
  | succ k ih =>
    rw [List.replicate_succ' (k + 1),
      joinSegs_append_single (List.replicate (k + 1) ['a']) (by simp) ['a'], ih]
    rfl

theorem pathClean_logicalDeep (k : Nat) :
    pathClean (logicalDeep k) = logicalDeep k := by
  rw [pathClean_eq_of_not_rooted _ (logicalDeep_ne_nil k) (isAbs_logicalDeep k),
    splitSeg_logicalDeep]
  have hcs : cleanSegs false (List.replicate (k + 1) ['a']) =
      List.replicate (k + 1) ['a'] := by
    apply cleanSegs_normal
    intro e he
    rw [List.eq_of_mem_replicate he]
    refine ⟨by simp, by decide, by decide⟩
  rw [hcs, if_neg (by simp), joinSegs_replicate_a]

theorem logicalDeep_ne_dot (k : Nat) : logicalDeep k ≠ ['.'] := by
  cases k with
  | zero => decide
  | succ k =>
    intro h
    have := logicalDeep_length (k + 1)
    rw [h] at this
    simp only [List.length_cons, List.length_nil] at this
    omega

theorem cleanPath_logicalDeep (k : Nat) :
    CleanPath (logicalDeep k) = .ok (logicalDeep k) := by
  unfold CleanPath
  rw [if_neg (by simp [containsDotDot_logicalDeep k]),
    if_neg (by simp [isAbs_logicalDeep k]),
    if_neg (by simp [all_valid_logicalDeep k])]
  simp only [pathClean_logicalDeep k]
  rw [if_neg (logicalDeep_ne_dot k)]

theorem deepPath_eq_join (k : Nat) :
    deepPath (k + 1) = deepPath 0 ++ '/' :: logicalDeep k := by
  induction k with
  | zero => rfl
  | succ k ih =>
    show deepPath (k + 1) ++ '/' :: 'a' :: [] = deepPath 0 ++ '/' ::
      (logicalDeep k ++ '/' :: 'a' :: [])
    rw [ih]
    simp [List.append_assoc]

theorem getFullPath_logicalDeep (k : Nat) :
    getFullPath ⟨deepPath 0⟩ (logicalDeep k) = .ok (deepPath (k + 1)) := by
  unfold getFullPath
  rw [cleanPath_logicalDeep k]
  show (if escapesDir (filepathAbs (filepathJoin (deepPath 0) (logicalDeep k)))
      (deepPath 0) = true
    then Except.error (StorError.invalidPath
      (filepathAbs (filepathJoin (deepPath 0) (logicalDeep k))))
    else Except.ok (filepathAbs (filepathJoin (deepPath 0) (logicalDeep k)))) = _
  have hjoin : filepathJoin (deepPath 0) (logicalDeep k) = deepPath (k + 1) := by
    unfold filepathJoin
    rw [if_neg (by exact deepPath_ne_nil 0), if_neg (logicalDeep_ne_nil k),
      ← deepPath_eq_join k, pathClean_deepPath]
  rw [hjoin]
  show (if escapesDir (pathClean (deepPath (k + 1))) (deepPath 0) = true
    then _ else _) = _
  rw [pathClean_deepPath (k + 1), if_neg (by rw [escapesDir_deepPath (k + 1)]; simp)]
  exact congrArg Except.ok (pathClean_deepPath (k + 1))

theorem osRemove_single_file (dp : List Char) (ds : List (List Char)) (v : List Nat) :
    FS.osRemove ⟨[(dp, v)], ds⟩ dp = .ok ⟨[], ds⟩ := by
  unfold FS.osRemove
  rw [if_pos (by simp [List.lookup])]
  show Except.ok (⟨List.filter (fun kv => !(kv.1 == dp)) [(dp, v)], ds⟩ : FS) = _
  simp

theorem delete_via (l : LocalDir) (fs : FS) (p full : List Char) (fs₁ : FS)
    (hfull : getFullPath l p = .ok full) (hre : fs.osRemove full = .ok fs₁) :
    LocalDir.Delete l fs p = pruneLoop l fs₁ full 1001 := by
  unfold LocalDir.Delete
  rw [hfull]
  show (match fs.osRemove full with
    | Except.error RmErr.notExist => (fs, some (StorError.pathDoesntExist p))
    | Except.error RmErr.otherErr => (fs, some StorError.substrate)
    | Except.ok fs₁ => pruneLoop l fs₁ full 1001) = _
  rw [hre]

/-- Behavior of `LocalDir.Delete` on a directory chain deeper than its
pruning loop's 1000-iteration cap: the file and 1001 ancestor directories
are removed, and then the capped loop reports an error, so the operation
returns an error after having changed the stored state.  This contradicts
the state-unchanged-on-failure contract; the cap was intended as an
unreachable defensive assertion. -/
theorem delete_deep_chain_partial_state :
    LocalDir.Delete ⟨deepPath 0⟩ deepFS (logicalDeep 1001) =
      (⟨[], chainDirs 0⟩, some .substrate) ∧
    ((⟨[], chainDirs 0⟩ : FS) ≠ deepFS) := by
  constructor
  · have hre : deepFS.osRemove (deepPath 1002) = .ok ⟨[], chainDirs 1001⟩ :=
      osRemove_single_file (deepPath 1002) (chainDirs 1001) [7]
    rw [delete_via ⟨deepPath 0⟩ deepFS (logicalDeep 1001) (deepPath 1002)
        ⟨[], chainDirs 1001⟩ (getFullPath_logicalDeep 1001) hre,
      prune_chain_err 1001 1001 (Nat.le_refl _),
      show (1001 : Nat) - 1001 = 0 from rfl]
  · intro h
    have hfiles : ([] : List (List Char × List Nat)) = [(deepPath 1002, [7])] :=
      congrArg FS.files h
    cases hfiles

end Stor
